import Mathlib

/-!
# Feature scaling (`src/feature_scale.c`)

A shallow embedding of the three routines of `feature_scale.c`:

* `mean_normal_single`   (lines 41-89)   z-score normalisation of a vector,
* `mean_normal_multiple` (lines 105-191) column-wise normalisation of a matrix,
* `read_from_data_file`  (lines 195-282) the two-pass CSV loader.

Conventions of the embedding.

* A C `double` is read over an exact ordered field `α` (the theorems take
  `α := ℝ`).  The library routine `sqrt` of `math.h` is a parameter.  This
  reading has no rounding; where a property depends on rounding, the vector
  normaliser is evaluated in binary64 arithmetic (`mean_normal_single_b64`).
* A division whose divisor is zero yields a non-finite double in C (`NaN` or
  an infinity).  Such a value is written `none`, a finite value `some x`; see
  `fdiv`.  Only the division by `std_dev` can meet a zero divisor: the
  divisions by `num_train` are reached with `num_train ≥ 1`.
* The `int` counters (`num_train`, `num_feat`, `m`, `n`, loop indices) are
  natural numbers; no input considered here brings them near `INT_MAX`.
* An array passed as pointer plus element count is a `List`, the count being
  its length.  Every read through an index that is not the loop variable of a
  loop over the array is a checked read `l[i]?`; an access outside the array
  (undefined behaviour in C) makes the routine return `none`.
-/

namespace FeatureScale

set_option linter.unusedSectionVars false

variable {α : Type} [LinearOrderedField α]

/-- The struct `normal_single_t` (lines 25-29). -/
structure normal_single_t (α : Type) where
  v : List (Option α)
  mean : α
  std_dev : α

/-- The struct `normal_multi_t` (lines 31-35). -/
structure normal_multi_t (α : Type) where
  V : List (List (Option α))
  mean : List α
  std_dev : List α

/-- Division of two doubles: a zero divisor gives a non-finite value (`none`). -/
def fdiv (x y : α) : Option α :=
  if y = 0 then none else some (x / y)

/-- The locals `max`, `min`, `sum` carried by the first loop of both normalisers. -/
structure scan_t (α : Type) where
  max : α
  min : α
  sum : α

/-- One iteration of the loop at lines 57-64 (and 142-149):
`if (max < x) max = x; else if (min > x) min = x; sum += x;`. -/
def scan_step (s : scan_t α) (x : α) : scan_t α :=
  if s.max < x then ⟨x, s.min, s.sum + x⟩
  else if s.min > x then ⟨s.max, x, s.sum + x⟩
  else ⟨s.max, s.min, s.sum + x⟩

/-- One iteration of the loop at lines 70-72 (and 165-167):
`sum += (x - mean) * (x - mean);`. -/
def sq_step (mean : α) (sum x : α) : α :=
  sum + (x - mean) * (x - mean)

/-- The state of `max`, `min`, `sum` after the first loop of
`mean_normal_single` (lines 53-64); `none` when `v[0]` or `v[1]` lies outside
the vector. -/
def first_loop (v : List α) : Option (scan_t α) :=
  match v[0]?, v[1]? with
  | some v0, some v1 => some (v.foldl scan_step ⟨v0, v1, 0⟩)
  | _, _ => none

/-- The routine `mean_normal_single` (lines 41-89); `num_train` is `v.length`. -/
def mean_normal_single (sqrt : α → α) (v : List α) : Option (normal_single_t α) :=
  match first_loop v with
  | none => none
  | some s =>
    let num_train : α := (v.length : α)
    let mean := s.sum / num_train
    let sum := v.foldl (sq_step mean) 0
    let std_dev := sqrt (sum / num_train)
    let result_v := v.map (fun x => fdiv (x - mean) std_dev)
    some ⟨result_v, mean, std_dev⟩

/-! ### The matrix normaliser -/

/-- The reads `v[i][j]` for `i = 0 .. num_train-1` of one inner loop (lines
142-149, 165-167, 181-183); `none` when some row has no index `j`. -/
def read_column (j : Nat) : List (List α) → Option (List α)
  | [] => some []
  | row :: rows =>
    match row[j]?, read_column j rows with
    | some x, some xs => some (x :: xs)
    | _, _ => none

/-- The work of `mean_normal_multiple` on one column `j ≥ 1`: the seeds
`max[j] = min[j] = v[0][j]` (lines 125-126), the scan of lines 141-150, the mean
of line 155 and the standard deviation of lines 164-168.  Returns
`(mean[j], std_dev[j])`. -/
def feature_col (sqrt : α → α) (v : List (List α)) (j : Nat) : Option (α × α) :=
  match v[0]? with
  | none => none
  | some row0 =>
    match row0[j]?, read_column j v with
    | some x0, some col =>
      let num_train : α := (v.length : α)
      let s := col.foldl scan_step ⟨x0, x0, 0⟩
      let mean := s.sum / num_train
      let sum := col.foldl (sq_step mean) 0
      some (mean, sqrt (sum / num_train))
    | _, _ => none

/-- The loops `for (j = 1; j < num_feat; j++)` of lines 140, 154 and 163:
`feature_cols sqrt v c j` handles the `c` columns `j, j+1, ..`. -/
def feature_cols (sqrt : α → α) (v : List (List α)) : Nat → Nat → Option (List (α × α))
  | 0, _ => some []
  | c + 1, j =>
    match feature_col sqrt v j, feature_cols sqrt v c (j + 1) with
    | some st, some sts => some (st :: sts)
    | _, _ => none

/-- Row `i` of `result_V`: `result_V[i][0] = 1.0` (line 173) followed by
`result_V[i][j] = (v[i][j] - mean[j]) / std_dev[j]` for `j = 1 .. num_feat-1`
(line 182); `st` lists `(mean[j], std_dev[j])` for those `j`. -/
def normal_row (st : List (α × α)) (row : List α) : List (Option α) :=
  some 1 :: List.zipWith (fun x c => fdiv (x - c.1) c.2) (row.drop 1) st

/-- The routine `mean_normal_multiple` (lines 105-191); `num_train` is
`v.length`. -/
def mean_normal_multiple (sqrt : α → α) (v : List (List α)) (num_feat : Nat) :
    Option (normal_multi_t α) :=
  if num_feat = 0 then none            -- line 130 writes `mean[0]` of `calloc(0, ..)`
  else
    match v[0]? with
    | none => none                     -- line 125 reads `v[0][0]`
    | some row0 =>
      if row0.length < num_feat then none   -- line 125 reads `v[0][j]`, `j < num_feat`
      else
        match feature_cols sqrt v (num_feat - 1) 1 with
        | none => none
        | some st =>
          some ⟨v.map (normal_row st), 1 :: st.map Prod.fst, 1 :: st.map Prod.snd⟩

/-! ### The loader -/

/-- The struct `data_t` (lines 18-23). -/
structure data_t (α : Type) where
  X : List (List α)
  y : List α
  num_train : Nat
  num_feat : Nat

/-- Modelled from the spec: the C library routine `fgets` is not part of the
source.  `fgets_read k fp` takes characters from the stream `fp` until `k` of
them are taken, a newline is taken, or the stream ends; it returns the
characters taken and the rest of the stream. -/
def fgets_read : Nat → List Char → List Char × List Char
  | 0, fp => ([], fp)
  | _ + 1, [] => ([], [])
  | k + 1, c :: fp =>
    if c = '\n' then ([c], fp)
    else (c :: (fgets_read k fp).1, (fgets_read k fp).2)

/-- Modelled from the spec: the C library call `fgets(str, size, fp)`; `none`
is the `NULL` returned at end of file, otherwise the new contents of `str` and
the rest of the stream. -/
def fgets (size : Nat) (fp : List Char) : Option (List Char × List Char) :=
  if fp = [] then none else some (fgets_read (size - 1) fp)

/-- The C string held by a buffer: its characters up to the first NUL. -/
def cstr (s : List Char) : List Char :=
  s.takeWhile (fun c => c != Char.ofNat 0)

/-- Modelled from the spec: the C library routine `strtok` with the single
delimiter `delim`, its hidden position made explicit.  `strtok delim s` scans
from position `s`: it skips delimiters, returns the token that follows (`none`
for `NULL` when there is none) and the position after the delimiter that ends
the token. -/
def strtok (delim : Char) (s : List Char) : Option (List Char) × List Char :=
  match s.dropWhile (fun c => c == delim) with
  | [] => (none, [])
  | c :: s1 =>
    (some ((c :: s1).takeWhile (fun c => c != delim)),
      ((c :: s1).dropWhile (fun c => c != delim)).drop 1)

/-- Lines 220-223: `while (fgets(str, 200, fp) != NULL) m++;`.  The state is
the stream, the buffer `str` (`none` while it is uninitialised) and `m`. -/
def count_loop : Nat → List Char → Option (List Char) → Nat → Option (List Char) × Nat
  | 0, _, str, m => (str, m)
  | fuel + 1, fp, str, m =>
    match fgets 200 fp with
    | none => (str, m)
    | some (s, fp1) => count_loop fuel fp1 (some s) (m + 1)

/-- Lines 226-230: `while (token != NULL) { token = strtok(NULL, ","); n++; }`. -/
def token_loop : Nat → Option (List Char) × List Char → Nat → Nat
  | 0, _, n => n
  | _ + 1, (none, _), n => n
  | fuel + 1, (some _, sv), n => token_loop fuel (strtok ',' sv) (n + 1)

/-- The first pass (lines 220-230): the buffer left by the last successful
`fgets`, the row count `m` and the token count `n` of that buffer.  `none` when
no line was read, so that `strtok` scans an uninitialised buffer. -/
def first_pass (fp : List Char) : Option (Nat × Nat) :=
  match count_loop (fp.length + 1) fp none 0 with
  | (none, _) => none
  | (some str, m) => some (m, token_loop (str.length + 1) (strtok ',' (cstr str)) 0)

/-- Lines 259-263: `for (j = 2; j < n; j++) X[i][j] = strtod(strtok(NULL, ","), NULL);`
with `c` iterations left; `none` when `strtok` returns `NULL`, which `strtod`
dereferences. -/
def fill_loop (strtod : List Char → α) : Nat → Nat → List α → List Char →
    Option (List α × List Char)
  | 0, _, row, sv => some (row, sv)
  | c + 1, j, row, sv =>
    match strtok ',' sv with
    | (none, _) => none
    | (some tok, sv1) => fill_loop strtod c (j + 1) (row.set j (strtod tok)) sv1

/-- The body of the second loop for one buffer `str` (lines 257-267): the
updated row `X[i]` and the value stored in `y[i]`. -/
def parse_row (strtod : List Char → α) (n : Nat) (row : List α) (str : List Char) :
    Option (List α × α) :=
  match strtok ',' (cstr str) with
  | (none, _) => none
  | (some tok, sv) =>
    if row.length ≤ 1 then none      -- line 257 writes `X[i][1]`
    else
      match fill_loop strtod (n - 2) 2 (row.set 1 (strtod tok)) sv with
      | none => none
      | some (row1, sv1) =>
        match strtok ',' sv1 with
        | (none, _) => none
        | (some last, _) => some (row1, strtod last)

/-- Lines 256-270: the second `while (fgets(str, 200, fp) != NULL)` loop. -/
def read_loop (strtod : List Char → α) (n : Nat) :
    Nat → List Char → List (List α) → List α → Nat → Option (List (List α) × List α)
  | 0, _, X, y, _ => some (X, y)
  | fuel + 1, fp, X, y, i =>
    match fgets 200 fp with
    | none => some (X, y)
    | some (str, fp1) =>
      match X[i]? with
      | none => none
      | some row =>
        match parse_row strtod n row str with
        | none => none
        | some (row1, yi) =>
          if i < y.length then read_loop strtod n fuel fp1 (X.set i row1) (y.set i yi) (i + 1)
          else none

/-- The routine `read_from_data_file` (lines 195-282) on a file that opens,
given by its contents `fp`; `strtod` is the library's number parser. -/
def read_from_data_file (strtod : List Char → α) (fp : List Char) : Option (data_t α) :=
  match first_pass fp with
  | none => none
  | some (m, n) =>
    if n = 0 then none               -- line 245 writes `X[i][0]` of `calloc(0, ..)`
    else
      match read_loop strtod n (fp.length + 1) fp
          (List.replicate m ((List.replicate n 0).set 0 1)) (List.replicate m 0) 0 with
      | none => none
      | some (X, y) => some ⟨X, y, m, n⟩

/-- The value of the longest prefix of decimal digits of a token (0 when it
has none). -/
def digits_value (s : List Char) : Nat :=
  (s.takeWhile Char.isDigit).foldl (fun a c => 10 * a + (c.toNat - 48)) 0

/-- A number parser for the examples: the value of the longest prefix of
decimal digits of the token, as `strtod` gives it for an unsigned integer
literal. -/
def strtod_digits (s : List Char) : α :=
  ((digits_value s : Nat) : α)

/-- The text of one row: its tokens separated by commas, ended by a newline. -/
def row_text (r : List (List Char)) : List Char :=
  List.intercalate [','] r ++ ['\n']

/-- The text of a file holding the given rows. -/
def file_text (rows : List (List (List Char))) : List Char :=
  (rows.map row_text).flatten

/-! ### Reference quantities, written as the specification words them -/

/-- Arithmetic mean: `sum(values) / n`. -/
def arith_mean (v : List α) : α :=
  v.sum / (v.length : α)

/-- Population variance: `sum((v - mean)^2) / n`, divisor `n`. -/
def pop_variance (v : List α) : α :=
  (v.map (fun x => (x - arith_mean v) ^ 2)).sum / (v.length : α)

/-- Population standard deviation: `sqrt(sum((v - mean)^2) / n)`. -/
def pop_std_dev (sqrt : α → α) (v : List α) : α :=
  sqrt (pop_variance v)

/-- Column `j` of a matrix: the values `v[0][j], .., v[m-1][j]` (0 where a row
has no index `j`). -/
def matrix_column (v : List (List α)) (j : Nat) : List α :=
  v.map (fun row => row.getD j 0)

/-- The pair (mean, population standard deviation) of column `j`. -/
def column_stats (sqrt : α → α) (v : List (List α)) (j : Nat) : α × α :=
  (arith_mean (matrix_column v j), pop_std_dev sqrt (matrix_column v j))

/-- A row the loader is meant for: at least one token, every token non-empty
and free of commas, newlines and NULs, and fewer than 199 characters before
the newline. -/
def well_formed_row (r : List (List Char)) : Prop :=
  r ≠ [] ∧
  (∀ t ∈ r, t ≠ [] ∧ ∀ c ∈ t, c ≠ ',' ∧ c ≠ '\n' ∧ c ≠ Char.ofNat 0) ∧
  (List.intercalate [','] r).length < 199

/-- The text of a file given by its lines, each ended by a newline. -/
def lines_text (lines : List (List Char)) : List Char :=
  (lines.map (fun l => l ++ ['\n'])).flatten

/-- The number of non-empty lines of a text, as the specification counts rows. -/
def nonempty_line_count (fp : List Char) : Nat :=
  ((fp.splitOn '\n').filter (fun l => !l.isEmpty)).length

/-- The true minimum of a vector: one of its values, below all of them. -/
def is_minimum_of (a : α) (v : List α) : Prop :=
  a ∈ v ∧ ∀ x ∈ v, a ≤ x

/-- The true maximum of a vector: one of its values, above all of them. -/
def is_maximum_of (a : α) (v : List α) : Prop :=
  a ∈ v ∧ ∀ x ∈ v, x ≤ a

/-! ### The vector normaliser on a vector of length 1 -/

/-- The first loop of `mean_normal_single` (lines 53-64) when the read of
`v[1]` at line 54 returns the value `junk` whenever index 1 lies outside the
vector; inside the vector it is `first_loop`. -/
def first_loop_reading (junk : α) (v : List α) : Option (scan_t α) :=
  match v[0]? with
  | some v0 => some (v.foldl scan_step ⟨v0, (v[1]?).getD junk, 0⟩)
  | none => none

/-- The routine `mean_normal_single` (lines 41-89) with the first loop taken as
`first_loop_reading junk`: what the routine computes from `v` when the read of
`v[1]` outside a one-element vector yields `junk`. -/
def mean_normal_single_reading (junk : α) (sqrt : α → α) (v : List α) :
    Option (normal_single_t α) :=
  match first_loop_reading junk v with
  | none => none
  | some s =>
    let num_train : α := (v.length : α)
    let mean := s.sum / num_train
    let sum := v.foldl (sq_step mean) 0
    let std_dev := sqrt (sum / num_train)
    let result_v := v.map (fun x => fdiv (x - mean) std_dev)
    some ⟨result_v, mean, std_dev⟩

/-! ### The vector normaliser in binary64 arithmetic

The C type `double` is IEEE 754 binary64.  A finite double is written as the
rational number it denotes, and every operation of the routine returns the
exact result rounded to the nearest double, ties to the even significand.
Values beyond the largest double, infinities and NaNs are not represented; the
inputs evaluated below stay far from them. -/

/-- The rational `2 ^ e`. -/
def pow2 (e : ℤ) : ℚ :=
  if 0 ≤ e then ((2 ^ e.toNat : ℕ) : ℚ) else 1 / ((2 ^ (-e).toNat : ℕ) : ℚ)

/-- The loop of `nat_log2`: halve `n` until it is below 2, counting the steps. -/
def log2_go : ℕ → ℕ → ℕ
  | 0, _ => 0
  | fuel + 1, n => if n < 2 then 0 else log2_go fuel (n / 2) + 1

/-- For `n ≥ 1`, the position of the leading bit of `n`: the `k` with
`2 ^ k ≤ n < 2 ^ (k + 1)`. -/
def nat_log2 (n : ℕ) : ℕ :=
  log2_go n n

/-- For `a > 0`, the exponent `e` with `2 ^ e ≤ a < 2 ^ (e + 1)`. -/
def floor_log2 (a : ℚ) : ℤ :=
  if a < pow2 ((nat_log2 a.num.natAbs : ℤ) - (nat_log2 a.den : ℤ)) then
    (nat_log2 a.num.natAbs : ℤ) - (nat_log2 a.den : ℤ) - 1
  else (nat_log2 a.num.natAbs : ℤ) - (nat_log2 a.den : ℤ)

/-- The integer nearest to `t ≥ 0`, the even one of the two when `t` lies half
way between them. -/
def round_half_even (t : ℚ) : ℤ :=
  if t - (t.floor : ℚ) < 1 / 2 then t.floor
  else if 1 / 2 < t - (t.floor : ℚ) then t.floor + 1
  else if t.floor % 2 = 0 then t.floor else t.floor + 1

/-- The double nearest to the rational `q` (ties to even): a multiple of the
unit in the last place `2 ^ (e - 52)` of the binade of `q`, the exponent `e`
not going below that of the subnormal numbers. -/
def b64_round (q : ℚ) : ℚ :=
  if q = 0 then 0
  else if q < 0 then
    -((round_half_even (|q| / pow2 (max (floor_log2 |q|) (-1022) - 52)) : ℚ)
      * pow2 (max (floor_log2 |q|) (-1022) - 52))
  else
    (round_half_even (|q| / pow2 (max (floor_log2 |q|) (-1022) - 52)) : ℚ)
      * pow2 (max (floor_log2 |q|) (-1022) - 52)

/-- The loop of a bitwise integer square root: `acc` grows by the powers
`2 ^ (i-1), .., 2 ^ 0` that keep its square within `n`. -/
def isqrt_go (n : ℕ) : ℕ → ℕ → ℕ
  | 0, acc => acc
  | i + 1, acc =>
    if (acc + 2 ^ i) ^ 2 ≤ n then isqrt_go n i (acc + 2 ^ i) else isqrt_go n i acc

/-- The integer square root: the largest `r` with `r ^ 2 ≤ n`. -/
def isqrt (n : ℕ) : ℕ :=
  isqrt_go n (nat_log2 n / 2 + 1) 0

/-- The unit in the last place of the square root of `x > 0`: `2 ^ (e - 52)`
with `2 ^ e ≤ sqrt x < 2 ^ (e + 1)`. -/
def sqrt_ulp (x : ℚ) : ℚ :=
  pow2 (floor_log2 x / 2 - 52)

/-- The integer part of `sqrt x / sqrt_ulp x`. -/
def sqrt_floor (x : ℚ) : ℕ :=
  isqrt (x / (sqrt_ulp x * sqrt_ulp x)).floor.toNat

/-- The library routine `sqrt` on a double `x ≥ 0`: the double nearest to the
real square root of `x` (ties to even).  With `f = sqrt_floor x`, the result is
`f * sqrt_ulp x` or `(f + 1) * sqrt_ulp x` according to the side of
`(f + 1/2) ^ 2` on which `x / sqrt_ulp x ^ 2` lies. -/
def b64_sqrt (x : ℚ) : ℚ :=
  if x ≤ 0 then 0
  else if x / (sqrt_ulp x * sqrt_ulp x) < ((sqrt_floor x : ℚ) + 1 / 2) ^ 2 then
    (sqrt_floor x : ℚ) * sqrt_ulp x
  else if ((sqrt_floor x : ℚ) + 1 / 2) ^ 2 < x / (sqrt_ulp x * sqrt_ulp x) then
    ((sqrt_floor x : ℚ) + 1) * sqrt_ulp x
  else if sqrt_floor x % 2 = 0 then (sqrt_floor x : ℚ) * sqrt_ulp x
  else ((sqrt_floor x : ℚ) + 1) * sqrt_ulp x

/-- One iteration of the loop at lines 57-64 on doubles: `sum += x` rounds. -/
def scan_step_b64 (s : scan_t ℚ) (x : ℚ) : scan_t ℚ :=
  if s.max < x then ⟨x, s.min, b64_round (s.sum + x)⟩
  else if s.min > x then ⟨s.max, x, b64_round (s.sum + x)⟩
  else ⟨s.max, s.min, b64_round (s.sum + x)⟩

/-- One iteration of the loop at lines 70-72 on doubles: the two differences,
their product and the addition to `sum` each round. -/
def sq_step_b64 (mean : ℚ) (sum x : ℚ) : ℚ :=
  b64_round (sum + b64_round (b64_round (x - mean) * b64_round (x - mean)))

/-- The routine `mean_normal_single` (lines 41-89) on doubles: the statements of
`mean_normal_single`, every arithmetic operation rounded to binary64. -/
def mean_normal_single_b64 (v : List ℚ) : Option (normal_single_t ℚ) :=
  match v[0]?, v[1]? with
  | some v0, some v1 =>
    let s := v.foldl scan_step_b64 ⟨v0, v1, 0⟩
    let num_train : ℚ := b64_round (v.length : ℚ)
    let mean := b64_round (s.sum / num_train)
    let sum := v.foldl (sq_step_b64 mean) 0
    let std_dev := b64_sqrt (b64_round (sum / num_train))
    let result_v := v.map (fun x =>
      if std_dev = 0 then none else some (b64_round (b64_round (x - mean) / std_dev)))
    some ⟨result_v, mean, std_dev⟩
  | _, _ => none

/-! ### Lemmas on the loops -/

theorem scan_step_sum (s : scan_t α) (x : α) : (scan_step s x).sum = s.sum + x := by
  unfold scan_step
  split_ifs <;> rfl

theorem foldl_scan_sum (v : List α) (s : scan_t α) :
    (v.foldl scan_step s).sum = s.sum + v.sum := by
  induction v generalizing s with
  | nil => simp
  | cons x xs ih => simp [List.foldl_cons, ih, scan_step_sum, add_assoc]

theorem foldl_sq_step (mean : α) (v : List α) (a : α) :
    v.foldl (sq_step mean) a = a + (v.map (fun x => (x - mean) ^ 2)).sum := by
  induction v generalizing a with
  | nil => simp
  | cons x xs ih => simp [List.foldl_cons, ih, sq_step, add_assoc, sq]

theorem first_loop_of_length (v : List α) (h : 2 ≤ v.length) :
    ∃ s, first_loop v = some s ∧ s.sum = v.sum := by
  match v, h with
  | a :: b :: t, _ =>
    refine ⟨(a :: b :: t).foldl scan_step ⟨a, b, 0⟩, by simp [first_loop], ?_⟩
    rw [foldl_scan_sum]
    simp

theorem mean_normal_single_eq (sqrt : α → α) (v : List α) (h : 2 ≤ v.length) :
    mean_normal_single sqrt v =
      some ⟨v.map (fun x => fdiv (x - arith_mean v) (pop_std_dev sqrt v)),
        arith_mean v, pop_std_dev sqrt v⟩ := by
  obtain ⟨s, hs, hsum⟩ := first_loop_of_length v h
  simp only [mean_normal_single, hs, hsum, foldl_sq_step, zero_add]
  rfl

/-! ### Algebra of the normalised vector -/

theorem sum_map_affine (v : List α) (a b : α) :
    (v.map (fun x => (x - a) / b)).sum = (v.sum - (v.length : α) * a) / b := by
  induction v with
  | nil => simp
  | cons x xs ih =>
    simp only [List.map_cons, List.sum_cons, ih, List.length_cons, Nat.cast_succ]
    ring

theorem sum_map_affine_sq (v : List α) (a b : α) :
    (v.map (fun x => ((x - a) / b - 0) ^ 2)).sum
      = (v.map (fun x => (x - a) ^ 2)).sum / b ^ 2 := by
  induction v with
  | nil => simp
  | cons x xs ih =>
    rw [List.map_cons, List.sum_cons, ih, List.map_cons, List.sum_cons]
    ring

theorem sum_sq_nonneg (v : List α) (a : α) :
    0 ≤ (v.map (fun x => (x - a) ^ 2)).sum := by
  induction v with
  | nil => simp
  | cons x xs ih =>
    simp only [List.map_cons, List.sum_cons]
    exact add_nonneg (sq_nonneg _) ih

theorem pop_variance_nonneg (v : List α) : 0 ≤ pop_variance v :=
  div_nonneg (sum_sq_nonneg v _) (Nat.cast_nonneg _)

theorem map_fdiv_of_ne_zero (v : List α) (a b : α) (hb : b ≠ 0) :
    v.map (fun x => fdiv (x - a) b) = (v.map (fun x => (x - a) / b)).map some := by
  simp [fdiv, hb]

/-- The normalised values have arithmetic mean zero. -/
theorem arith_mean_normalised (v : List α) (b : α) (hn : v ≠ []) :
    arith_mean (v.map (fun x => (x - arith_mean v) / b)) = 0 := by
  have hlen : (v.length : α) ≠ 0 := by
    simpa using hn
  unfold arith_mean
  rw [sum_map_affine, mul_div_cancel₀ _ hlen]
  simp

/-- The normalised values have population variance `pop_variance v / b ^ 2`. -/
theorem pop_variance_normalised (v : List α) (b : α) (hn : v ≠ []) :
    pop_variance (v.map (fun x => (x - arith_mean v) / b)) = pop_variance v / b ^ 2 := by
  have h0 := arith_mean_normalised v b hn
  unfold pop_variance
  rw [h0, List.map_map]
  have : ((fun x : α => (x - 0) ^ 2) ∘ fun x => (x - arith_mean v) / b)
      = fun x => ((x - arith_mean v) / b - 0) ^ 2 := rfl
  rw [this, sum_map_affine_sq, List.length_map]
  ring

theorem sqrt_pop_variance_ne_zero (v : List ℝ) (hv : pop_variance v ≠ 0) :
    pop_std_dev Real.sqrt v ≠ 0 := by
  unfold pop_std_dev
  rw [Ne, Real.sqrt_eq_zero (pop_variance_nonneg v)]
  exact hv

theorem ne_nil_of_two_le {β : Type} (v : List β) (h : 2 ≤ v.length) : v ≠ [] := by
  intro h0
  simp [h0] at h

theorem replicate_eq_map_const {β γ : Type} (v : List β) (c : γ) :
    List.replicate v.length c = v.map (fun _ => c) := by
  induction v with
  | nil => rfl
  | cons x xs ih => rw [List.length_cons, List.replicate_succ, ih, List.map_cons]

theorem arith_mean_const (v : List α) (c : α) (hn : v ≠ []) (hc : ∀ x ∈ v, x = c) :
    arith_mean v = c := by
  have hlen : (v.length : α) ≠ 0 := by
    simpa using hn
  have hsum : v.sum = (v.length : α) * c := by
    clear hn hlen
    induction v with
    | nil => simp
    | cons x xs ih =>
      have hx : x = c := hc x (List.mem_cons_self _ _)
      have hxs : ∀ y ∈ xs, y = c := fun y hy => hc y (List.mem_cons_of_mem _ hy)
      rw [List.sum_cons, ih hxs, hx, List.length_cons, Nat.cast_succ]
      ring
  unfold arith_mean
  rw [hsum, mul_div_cancel_left₀ _ hlen]

theorem pop_variance_const (v : List α) (c : α) (hn : v ≠ []) (hc : ∀ x ∈ v, x = c) :
    pop_variance v = 0 := by
  have hsum : (v.map (fun x => (x - arith_mean v) ^ 2)).sum = 0 := by
    rw [arith_mean_const v c hn hc]
    clear hn
    induction v with
    | nil => simp
    | cons x xs ih =>
      have hx : x = c := hc x (List.mem_cons_self _ _)
      have hxs : ∀ y ∈ xs, y = c := fun y hy => hc y (List.mem_cons_of_mem _ hy)
      rw [List.map_cons, List.sum_cons, ih hxs, hx]
      simp
  unfold pop_variance
  rw [hsum, zero_div]

/-! ### Lemmas on the matrix normaliser -/

theorem read_column_eq (v : List (List α)) (j : Nat) (h : ∀ row ∈ v, j < row.length) :
    read_column j v = some (matrix_column v j) := by
  induction v with
  | nil => rfl
  | cons row rows ih =>
    have hrow : j < row.length := h row (List.mem_cons_self _ _)
    have hrows : ∀ r ∈ rows, j < r.length := fun r hr => h r (List.mem_cons_of_mem _ hr)
    have ih1 := ih hrows
    unfold matrix_column at ih1
    simp [read_column, matrix_column, ih1, hrow]

theorem feature_col_eq (sqrt : α → α) (v : List (List α)) (j : Nat) (hv : v ≠ [])
    (h : ∀ row ∈ v, j < row.length) :
    feature_col sqrt v j = some (column_stats sqrt v j) := by
  match v, hv with
  | row0 :: rows, _ =>
    have hrow : j < row0.length := h row0 (List.mem_cons_self _ _)
    have hlen : (matrix_column (row0 :: rows) j).length = (row0 :: rows).length := by
      simp [matrix_column]
    simp only [feature_col, List.getElem?_cons_zero, read_column_eq _ j h,
      List.getElem?_eq_getElem hrow, foldl_scan_sum, foldl_sq_step, zero_add, column_stats,
      arith_mean, pop_std_dev, pop_variance, hlen]

theorem feature_cols_eq (sqrt : α → α) (v : List (List α)) (hv : v ≠ []) (c j0 : Nat)
    (h : ∀ row ∈ v, j0 + c ≤ row.length) :
    feature_cols sqrt v c j0 = some ((List.range' j0 c).map (column_stats sqrt v)) := by
  induction c generalizing j0 with
  | zero => rfl
  | succ c ih =>
    have h1 : ∀ row ∈ v, j0 < row.length := fun row hr => by
      have := h row hr
      omega
    have h2 : ∀ row ∈ v, (j0 + 1) + c ≤ row.length := fun row hr => by
      have := h row hr
      omega
    simp [feature_cols, feature_col_eq sqrt v j0 hv h1, ih (j0 + 1) h2, List.range'_succ]

theorem mean_normal_multiple_eq (sqrt : α → α) (v : List (List α)) (n : Nat)
    (hm : 1 ≤ v.length) (hn : 1 ≤ n) (hshape : ∀ row ∈ v, n ≤ row.length) :
    mean_normal_multiple sqrt v n =
      some ⟨v.map (normal_row ((List.range' 1 (n - 1)).map (column_stats sqrt v))),
        1 :: ((List.range' 1 (n - 1)).map (column_stats sqrt v)).map Prod.fst,
        1 :: ((List.range' 1 (n - 1)).map (column_stats sqrt v)).map Prod.snd⟩ := by
  have hv : v ≠ [] := by
    intro h0
    simp [h0] at hm
  have hcols := feature_cols_eq sqrt v hv (n - 1) 1 (fun row hr => by
    have := hshape row hr
    omega)
  match v, hv with
  | row0 :: rows, _ =>
    have hrow : ¬ row0.length < n := by
      have := hshape row0 (List.mem_cons_self _ _)
      omega
    have hn0 : n ≠ 0 := by omega
    simp only [mean_normal_multiple, hn0, if_false, List.getElem?_cons_zero, hrow, hcols]

theorem normal_row_get (st : List (α × α)) (row : List α) (j : Nat) (c : α × α)
    (hj : 1 ≤ j) (hst : st[j - 1]? = some c) (hrow : j < row.length) :
    (normal_row st row)[j]? = some (fdiv (row.getD j 0 - c.1) c.2) := by
  obtain ⟨k, rfl⟩ : ∃ k, j = k + 1 := ⟨j - 1, by omega⟩
  have hd : (row.drop 1)[k]? = some row[k + 1] := by
    rw [List.getElem?_drop, Nat.add_comm 1 k, List.getElem?_eq_getElem hrow]
  have hst1 : st[k]? = some c := by simpa using hst
  simp [normal_row, List.getElem?_zipWith, hd, hst1, hrow]

theorem column_stats_get (sqrt : α → α) (v : List (List α)) (n j : Nat)
    (hj : 1 ≤ j) (hjn : j < n) :
    ((List.range' 1 (n - 1)).map (column_stats sqrt v))[j - 1]?
      = some (column_stats sqrt v j) := by
  have h1 : j - 1 < n - 1 := by omega
  have h2 : 1 + (j - 1) = j := by omega
  simp [List.getElem?_range', h1, h2]

/-- Column `j ≥ 1` of the output of `mean_normal_multiple`. -/
theorem normal_rows_column (sqrt : α → α) (v : List (List α)) (n j : Nat)
    (hj : 1 ≤ j) (hjn : j < n) (hshape : ∀ row ∈ v, n ≤ row.length) :
    (v.map (normal_row ((List.range' 1 (n - 1)).map (column_stats sqrt v)))).map
        (fun row => row[j]?)
      = ((matrix_column v j).map (fun x =>
          fdiv (x - (column_stats sqrt v j).1) (column_stats sqrt v j).2)).map some := by
  unfold matrix_column
  rw [List.map_map, List.map_map, List.map_map]
  apply List.map_congr_left
  intro row hr
  have hrow : j < row.length := by
    have := hshape row hr
    omega
  exact normal_row_get _ row j _ hj (column_stats_get sqrt v n j hj hjn) hrow

/-! ### The vector normaliser: claims -/

/-- C1: for every real vector `v` of length `n ≥ 2`, `mean_normal_single`
returns a triple (normalized, mean, std_dev) with `mean = sum(v)/n`,
`std_dev = sqrt(sum((v[i]-mean)^2)/n)` (divisor `n`), normalized of length `n`,
and `normalized[i]` the quotient of `v[i]-mean` by `std_dev` for every `i < n`
(the finite value `(v[i]-mean)/std_dev` whenever `std_dev` is not zero). -/
theorem mean_normal_single_contract (v : List ℝ) (h : 2 ≤ v.length) :
    ∃ r, mean_normal_single Real.sqrt v = some r ∧
      r.mean = v.sum / (v.length : ℝ) ∧
      r.std_dev = Real.sqrt ((v.map (fun x => (x - r.mean) ^ 2)).sum / (v.length : ℝ)) ∧
      r.v.length = v.length ∧
      (∀ i (hi : i < v.length), r.v[i]? = some (fdiv (v[i] - r.mean) r.std_dev)) ∧
      (r.std_dev ≠ 0 →
        ∀ i (hi : i < v.length), r.v[i]? = some (some ((v[i] - r.mean) / r.std_dev))) := by
  refine ⟨_, mean_normal_single_eq Real.sqrt v h, rfl, rfl, by simp, ?_, ?_⟩
  · intro i hi
    simp [hi]
  · intro hsd i hi
    simp [hi, fdiv, hsd]

/-- Witness of C1 at the vector `[0, 2]`. -/
theorem mean_normal_single_contract_witness :
    2 ≤ ([0, 2] : List ℝ).length ∧
    ∃ r, mean_normal_single Real.sqrt ([0, 2] : List ℝ) = some r ∧
      r.mean = ([0, 2] : List ℝ).sum / (([0, 2] : List ℝ).length : ℝ) ∧
      r.std_dev = Real.sqrt ((([0, 2] : List ℝ).map (fun x => (x - r.mean) ^ 2)).sum
        / (([0, 2] : List ℝ).length : ℝ)) ∧
      r.v.length = ([0, 2] : List ℝ).length ∧
      (∀ i (hi : i < ([0, 2] : List ℝ).length),
        r.v[i]? = some (fdiv (([0, 2] : List ℝ)[i] - r.mean) r.std_dev)) ∧
      (r.std_dev ≠ 0 →
        ∀ i (hi : i < ([0, 2] : List ℝ).length),
          r.v[i]? = some (some ((([0, 2] : List ℝ)[i] - r.mean) / r.std_dev))) :=
  ⟨by simp, mean_normal_single_contract [0, 2] (by simp)⟩

/-- C2: round-trip law.  For every real vector `v` of length `n ≥ 2` with
non-zero variance, `mean_normal_single` returns (normalized, mean, std_dev) and
every `normalized[i]` is a finite value `x` with `x * std_dev + mean = v[i]`. -/
theorem mean_normal_single_round_trip (v : List ℝ) (h : 2 ≤ v.length)
    (hv : pop_variance v ≠ 0) :
    ∃ r, mean_normal_single Real.sqrt v = some r ∧
      ∀ i (hi : i < v.length),
        ∃ x, r.v[i]? = some (some x) ∧ x * r.std_dev + r.mean = v[i] := by
  have hsd := sqrt_pop_variance_ne_zero v hv
  refine ⟨_, mean_normal_single_eq Real.sqrt v h, ?_⟩
  intro i hi
  refine ⟨(v[i] - arith_mean v) / pop_std_dev Real.sqrt v, by simp [hi, fdiv, hsd], ?_⟩
  show (v[i] - arith_mean v) / pop_std_dev Real.sqrt v * pop_std_dev Real.sqrt v
    + arith_mean v = v[i]
  rw [div_mul_cancel₀ _ hsd]
  ring

/-- Witness of C2 at the vector `[0, 2]`, whose variance is 1. -/
theorem mean_normal_single_round_trip_witness :
    2 ≤ ([0, 2] : List ℝ).length ∧ pop_variance ([0, 2] : List ℝ) ≠ 0 ∧
    ∃ r, mean_normal_single Real.sqrt ([0, 2] : List ℝ) = some r ∧
      ∀ i (hi : i < ([0, 2] : List ℝ).length),
        ∃ x, r.v[i]? = some (some x) ∧ x * r.std_dev + r.mean = ([0, 2] : List ℝ)[i] :=
  ⟨by simp, by norm_num [pop_variance, arith_mean],
    mean_normal_single_round_trip [0, 2] (by simp) (by norm_num [pop_variance, arith_mean])⟩

/-- C3: for every real vector `v` of length `n ≥ 2` with non-zero variance,
the normalized vector returned by `mean_normal_single` consists of finite
values whose arithmetic mean is exactly 0 and whose population standard
deviation is exactly 1. -/
theorem mean_normal_single_standardised (v : List ℝ) (h : 2 ≤ v.length)
    (hv : pop_variance v ≠ 0) :
    ∃ r w, mean_normal_single Real.sqrt v = some r ∧ r.v = w.map some ∧
      arith_mean w = 0 ∧ pop_std_dev Real.sqrt w = 1 := by
  have hsd := sqrt_pop_variance_ne_zero v hv
  have hn := ne_nil_of_two_le v h
  refine ⟨_, v.map (fun x => (x - arith_mean v) / pop_std_dev Real.sqrt v),
    mean_normal_single_eq Real.sqrt v h, map_fdiv_of_ne_zero v _ _ hsd,
    arith_mean_normalised v _ hn, ?_⟩
  unfold pop_std_dev
  rw [pop_variance_normalised v _ hn]
  show Real.sqrt (pop_variance v / Real.sqrt (pop_variance v) ^ 2) = 1
  rw [Real.sq_sqrt (pop_variance_nonneg v), div_self hv, Real.sqrt_one]

/-- Witness of C3 at the vector `[0, 2]`, whose variance is 1. -/
theorem mean_normal_single_standardised_witness :
    2 ≤ ([0, 2] : List ℝ).length ∧ pop_variance ([0, 2] : List ℝ) ≠ 0 ∧
    ∃ r w, mean_normal_single Real.sqrt ([0, 2] : List ℝ) = some r ∧ r.v = w.map some ∧
      arith_mean w = 0 ∧ pop_std_dev Real.sqrt w = 1 :=
  ⟨by simp, by norm_num [pop_variance, arith_mean],
    mean_normal_single_standardised [0, 2] (by simp)
      (by norm_num [pop_variance, arith_mean])⟩

/-- C7, as stated, fails: on the all-equal vector `[5, 5, 5]` the routine
raises no error but returns a result, with `std_dev = 0` and every normalized
value the non-finite outcome of a division by that zero. -/
theorem mean_normal_single_constant_counterexample :
    mean_normal_single Real.sqrt ([5, 5, 5] : List ℝ) = some ⟨[none, none, none], 5, 0⟩ := by
  have hm : arith_mean ([5, 5, 5] : List ℝ) = 5 := by norm_num [arith_mean]
  have hs : pop_std_dev Real.sqrt ([5, 5, 5] : List ℝ) = 0 := by
    norm_num [pop_std_dev, pop_variance, arith_mean]
  rw [mean_normal_single_eq Real.sqrt _ (by simp), hm, hs]
  simp [fdiv]

/-- C7, amended: `mean_normal_single` has no test of `std_dev` and no error
path.  For every vector of length `n ≥ 2` (the constant ones among them) it
returns a result with `n` normalized values, and whenever the `std_dev` it
computed is exactly 0, as on `[5, 5, 5]`, every normalized value is the
non-finite outcome of the division by that zero. -/
theorem mean_normal_single_no_variance_check (v : List ℝ) (h : 2 ≤ v.length) :
    ∃ r, mean_normal_single Real.sqrt v = some r ∧ r.v.length = v.length ∧
      (r.std_dev = 0 → r.v = List.replicate v.length none) := by
  refine ⟨_, mean_normal_single_eq Real.sqrt v h, by simp, ?_⟩
  intro hs
  have hs1 : pop_std_dev Real.sqrt v = 0 := hs
  show v.map _ = _
  rw [hs1, replicate_eq_map_const]
  simp [fdiv]

/-- Witness of the amended C7 at the vector `[5, 5, 5]`. -/
theorem mean_normal_single_no_variance_check_witness :
    2 ≤ ([5, 5, 5] : List ℝ).length ∧
    ∃ r, mean_normal_single Real.sqrt ([5, 5, 5] : List ℝ) = some r ∧
      r.v.length = ([5, 5, 5] : List ℝ).length ∧
      (r.std_dev = 0 → r.v = List.replicate ([5, 5, 5] : List ℝ).length none) :=
  ⟨by simp, mean_normal_single_no_variance_check [5, 5, 5] (by simp)⟩

/-! ### The matrix normaliser: claims -/

/-- C4: whatever matrix `mean_normal_multiple` is given, any result it returns
has `mean[0] = 1.0`, `std_dev[0] = 1.0`, as many rows as the input, and 1.0 in
column 0 of every row; and it does return a result for every matrix of `m ≥ 1`
rows and `n ≥ 1` columns, whatever column 0 of the input contains. -/
theorem mean_normal_multiple_bias (v : List (List ℝ)) (n : Nat) :
    (∀ r, mean_normal_multiple Real.sqrt v n = some r →
      r.mean[0]? = some 1 ∧ r.std_dev[0]? = some 1 ∧ r.V.length = v.length ∧
      ∀ row ∈ r.V, row[0]? = some (some 1)) ∧
    (1 ≤ v.length → 1 ≤ n → (∀ row ∈ v, n ≤ row.length) →
      ∃ r, mean_normal_multiple Real.sqrt v n = some r) := by
  constructor
  · intro r hr
    unfold mean_normal_multiple at hr
    split_ifs at hr
    split at hr
    · exact absurd hr (by simp)
    · split_ifs at hr
      split at hr
      · exact absurd hr (by simp)
      · cases hr
        refine ⟨by simp, by simp, by simp, ?_⟩
        intro row hrow
        obtain ⟨a, _, rfl⟩ := List.mem_map.mp hrow
        simp [normal_row]
  · intro hm hn hshape
    exact ⟨_, mean_normal_multiple_eq Real.sqrt v n hm hn hshape⟩

/-- Witness of C4 at a matrix of two rows and three columns whose column 0 holds
7 and 9. -/
theorem mean_normal_multiple_bias_witness :
    ∃ r, mean_normal_multiple Real.sqrt ([[7, 0, 1], [9, 2, 1]] : List (List ℝ)) 3 = some r ∧
      r.mean[0]? = some 1 ∧ r.std_dev[0]? = some 1 ∧ r.V.length = 2 ∧
      ∀ row ∈ r.V, row[0]? = some (some 1) := by
  obtain ⟨r, hr⟩ := (mean_normal_multiple_bias [[7, 0, 1], [9, 2, 1]] 3).2
    (by simp) (by simp) (by simp)
  exact ⟨r, hr, (mean_normal_multiple_bias [[7, 0, 1], [9, 2, 1]] 3).1 r hr⟩

/-- C5: for every real matrix with `m ≥ 2` rows and `n` columns and every column
index `1 ≤ j < n`, `mean_normal_multiple` returns a result whose `mean[j]`,
`std_dev[j]` and output column `j` equal the mean, std_dev and normalized vector
that `mean_normal_single` returns on input column `j`. -/
theorem mean_normal_multiple_agrees_with_single (v : List (List ℝ)) (n j : Nat)
    (hm : 2 ≤ v.length) (hshape : ∀ row ∈ v, n ≤ row.length) (hj : 1 ≤ j) (hjn : j < n) :
    ∃ r s, mean_normal_multiple Real.sqrt v n = some r ∧
      mean_normal_single Real.sqrt (matrix_column v j) = some s ∧
      r.mean[j]? = some s.mean ∧ r.std_dev[j]? = some s.std_dev ∧
      r.V.map (fun row => row[j]?) = s.v.map some := by
  have hlen : 2 ≤ (matrix_column v j).length := by
    simpa [matrix_column] using hm
  obtain ⟨k, rfl⟩ : ∃ k, j = k + 1 := ⟨j - 1, by omega⟩
  have hst := column_stats_get Real.sqrt v n (k + 1) hj hjn
  rw [Nat.add_sub_cancel] at hst
  refine ⟨_, _, mean_normal_multiple_eq Real.sqrt v n (by omega) (by omega) hshape,
    mean_normal_single_eq Real.sqrt _ hlen, ?_, ?_,
    normal_rows_column Real.sqrt v n (k + 1) hj hjn hshape⟩
  · simp only [List.getElem?_cons_succ, List.getElem?_map, hst, Option.map_some', column_stats]
  · simp only [List.getElem?_cons_succ, List.getElem?_map, hst, Option.map_some', column_stats]

/-- Witness of C5 at column 1 of a matrix of two rows and three columns. -/
theorem mean_normal_multiple_agrees_with_single_witness :
    ∃ r s, mean_normal_multiple Real.sqrt ([[7, 0, 1], [9, 2, 1]] : List (List ℝ)) 3 = some r ∧
      mean_normal_single Real.sqrt (matrix_column ([[7, 0, 1], [9, 2, 1]] : List (List ℝ)) 1)
        = some s ∧
      r.mean[1]? = some s.mean ∧ r.std_dev[1]? = some s.std_dev ∧
      r.V.map (fun row => row[1]?) = s.v.map some :=
  mean_normal_multiple_agrees_with_single [[7, 0, 1], [9, 2, 1]] 3 1
    (by simp) (by simp) (by simp) (by simp)

/-- C6: for every real matrix with `m ≥ 1` rows whose non-bias columns
`1 .. n-1` each have non-zero variance, `mean_normal_multiple` returns a result
in which every such column of the normalized output consists of finite values
with arithmetic mean 0 and population standard deviation 1. -/
theorem mean_normal_multiple_standardised (v : List (List ℝ)) (n : Nat)
    (hm : 1 ≤ v.length) (hshape : ∀ row ∈ v, n ≤ row.length)
    (hvar : ∀ j, 1 ≤ j → j < n → pop_variance (matrix_column v j) ≠ 0) :
    ∀ j, 1 ≤ j → j < n →
      ∃ r, mean_normal_multiple Real.sqrt v n = some r ∧
        ∃ w : List ℝ, r.V.map (fun row => row[j]?) = (w.map some).map some ∧
          arith_mean w = 0 ∧ pop_std_dev Real.sqrt w = 1 := by
  intro j hj hjn
  refine ⟨_, mean_normal_multiple_eq Real.sqrt v n hm (by omega) hshape, ?_⟩
  have hv := hvar j hj hjn
  have hsd := sqrt_pop_variance_ne_zero _ hv
  have hne : matrix_column v j ≠ [] := by
    intro h0
    have hl : (matrix_column v j).length = v.length := by simp [matrix_column]
    rw [h0] at hl
    simp at hl
    omega
  refine ⟨(matrix_column v j).map
      (fun x => (x - arith_mean (matrix_column v j)) / pop_std_dev Real.sqrt (matrix_column v j)),
    ?_, arith_mean_normalised _ _ hne, ?_⟩
  · rw [← map_fdiv_of_ne_zero _ _ _ hsd]
    exact normal_rows_column Real.sqrt v n j hj hjn hshape
  · unfold pop_std_dev
    rw [pop_variance_normalised _ _ hne]
    show Real.sqrt (pop_variance (matrix_column v j)
      / Real.sqrt (pop_variance (matrix_column v j)) ^ 2) = 1
    rw [Real.sq_sqrt (pop_variance_nonneg _), div_self hv, Real.sqrt_one]

/-- Witness of C6 at a matrix of two rows whose columns 1 and 2 both have
variance 1. -/
theorem mean_normal_multiple_standardised_witness :
    (∀ j, 1 ≤ j → j < 3 →
      pop_variance (matrix_column ([[7, 0, 1], [9, 2, 3]] : List (List ℝ)) j) ≠ 0) ∧
    ∀ j, 1 ≤ j → j < 3 →
      ∃ r, mean_normal_multiple Real.sqrt ([[7, 0, 1], [9, 2, 3]] : List (List ℝ)) 3 = some r ∧
        ∃ w : List ℝ, r.V.map (fun row => row[j]?) = (w.map some).map some ∧
          arith_mean w = 0 ∧ pop_std_dev Real.sqrt w = 1 := by
  have hvar : ∀ j, 1 ≤ j → j < 3 →
      pop_variance (matrix_column ([[7, 0, 1], [9, 2, 3]] : List (List ℝ)) j) ≠ 0 := by
    intro j h1 h3
    interval_cases j <;> norm_num [matrix_column, pop_variance, arith_mean]
  exact ⟨hvar, mean_normal_multiple_standardised [[7, 0, 1], [9, 2, 3]] 3
    (by simp) (by simp) hvar⟩

/-! ### Lemmas on the loader -/

theorem row_text_single (t : List Char) : row_text [t] = t ++ ['\n'] := by
  simp [row_text, List.intercalate]

theorem row_text_cons_cons (t t1 : List Char) (r : List (List Char)) :
    row_text (t :: t1 :: r) = t ++ ',' :: row_text (t1 :: r) := by
  simp [row_text, List.intercalate]

theorem file_text_cons (r : List (List Char)) (rows : List (List (List Char))) :
    file_text (r :: rows) = row_text r ++ file_text rows := by
  simp [file_text]

theorem mem_intercalate : ∀ (r : List (List Char)) (c : Char),
    c ∈ List.intercalate [','] r → c = ',' ∨ ∃ t ∈ r, c ∈ t
  | [], c, h => by simp [List.intercalate] at h
  | [t], c, h => by
    simp [List.intercalate] at h
    exact Or.inr ⟨t, by simp, h⟩
  | t :: t1 :: r, c, h => by
    have e : List.intercalate [','] (t :: t1 :: r)
        = t ++ ',' :: List.intercalate [','] (t1 :: r) := by
      simp [List.intercalate]
    rw [e, List.mem_append, List.mem_cons] at h
    rcases h with h | h | h
    · exact Or.inr ⟨t, by simp, h⟩
    · exact Or.inl h
    · rcases mem_intercalate (t1 :: r) c h with h1 | ⟨t2, ht2, hc⟩
      · exact Or.inl h1
      · exact Or.inr ⟨t2, List.mem_cons_of_mem _ ht2, hc⟩

theorem fgets_read_line (l rest : List Char) (k : Nat) (hnl : ∀ c ∈ l, c ≠ '\n')
    (hk : l.length < k) : fgets_read k (l ++ '\n' :: rest) = (l ++ ['\n'], rest) := by
  induction l generalizing k with
  | nil =>
    obtain ⟨k1, rfl⟩ : ∃ k1, k = k1 + 1 := ⟨k - 1, by simp at hk; omega⟩
    simp [fgets_read]
  | cons c l ih =>
    obtain ⟨k1, rfl⟩ : ∃ k1, k = k1 + 1 := ⟨k - 1, by simp at hk; omega⟩
    have hc : c ≠ '\n' := hnl c (List.mem_cons_self _ _)
    have hl : ∀ d ∈ l, d ≠ '\n' := fun d hd => hnl d (List.mem_cons_of_mem _ hd)
    have hk1 : l.length < k1 := by simp at hk; omega
    simp [fgets_read, hc, ih k1 hl hk1]

theorem fgets_line (l rest : List Char) (hnl : ∀ c ∈ l, c ≠ '\n') (hk : l.length < 199) :
    fgets 200 (l ++ '\n' :: rest) = some (l ++ ['\n'], rest) := by
  simp [fgets, fgets_read_line l rest 199 hnl hk]

theorem cstr_eq_self (s : List Char) (h : ∀ c ∈ s, c ≠ Char.ofNat 0) : cstr s = s := by
  induction s with
  | nil => rfl
  | cons c s ih =>
    have hc : c ≠ Char.ofNat 0 := h c (List.mem_cons_self _ _)
    have hs : ∀ d ∈ s, d ≠ Char.ofNat 0 := fun d hd => h d (List.mem_cons_of_mem _ hd)
    have ih1 := ih hs
    unfold cstr at ih1 ⊢
    simp [hc, ih1]

theorem strtok_comma (t rest : List Char) (ht : t ≠ []) (hc : ∀ c ∈ t, c ≠ ',') :
    strtok ',' (t ++ ',' :: rest) = (some t, rest) := by
  match t, ht with
  | c :: t1, _ =>
    have hc0 : c ≠ ',' := hc c (List.mem_cons_self _ _)
    have hp : ∀ a ∈ c :: t1, (fun c => c != ',') a = true := by
      intro a ha
      simpa using hc a ha
    have h1 : List.dropWhile (fun c => c == ',') ((c :: t1) ++ ',' :: rest)
        = (c :: t1) ++ ',' :: rest := by
      simp [hc0]
    unfold strtok
    rw [h1]
    show (some (List.takeWhile (fun c => c != ',') ((c :: t1) ++ ',' :: rest)),
      (List.dropWhile (fun c => c != ',') ((c :: t1) ++ ',' :: rest)).drop 1) = _
    rw [List.takeWhile_append_of_pos hp, List.dropWhile_append_of_pos hp]
    simp

theorem strtok_last (t : List Char) (ht : t ≠ []) (hc : ∀ c ∈ t, c ≠ ',') :
    strtok ',' t = (some t, []) := by
  match t, ht with
  | c :: t1, _ =>
    have hc0 : c ≠ ',' := hc c (List.mem_cons_self _ _)
    have hp : ∀ a ∈ c :: t1, (fun c => c != ',') a = true := by
      intro a ha
      simpa using hc a ha
    have h1 : List.dropWhile (fun c => c == ',') (c :: t1) = c :: t1 := by
      simp [hc0]
    have h2 : List.takeWhile (fun c => c != ',') ((c :: t1) ++ [])
        = (c :: t1) ++ List.takeWhile (fun c => c != ',') [] :=
      List.takeWhile_append_of_pos hp
    have h3 : List.dropWhile (fun c => c != ',') ((c :: t1) ++ [])
        = List.dropWhile (fun c => c != ',') [] :=
      List.dropWhile_append_of_pos hp
    rw [List.append_nil] at h2 h3
    unfold strtok
    rw [h1]
    show (some (List.takeWhile (fun c => c != ',') (c :: t1)),
      (List.dropWhile (fun c => c != ',') (c :: t1)).drop 1) = _
    rw [h2, h3]
    simp

theorem well_formed_row_tail (t t1 : List Char) (r : List (List Char))
    (h : well_formed_row (t :: t1 :: r)) : well_formed_row (t1 :: r) := by
  obtain ⟨_, htok, hlen⟩ := h
  refine ⟨by simp, fun t2 h2 => htok t2 (List.mem_cons_of_mem _ h2), ?_⟩
  have e : List.intercalate [','] (t :: t1 :: r)
      = t ++ ',' :: List.intercalate [','] (t1 :: r) := by
    simp [List.intercalate]
  rw [e] at hlen
  simp at hlen
  omega

theorem fgets_row (r : List (List Char)) (rest : List Char) (h : well_formed_row r) :
    fgets 200 (row_text r ++ rest) = some (row_text r, rest) := by
  obtain ⟨_, htok, hlen⟩ := h
  have hnl : ∀ c ∈ List.intercalate [','] r, c ≠ '\n' := by
    intro c hc
    rcases mem_intercalate r c hc with h1 | ⟨t, ht, hct⟩
    · rw [h1]
      decide
    · exact ((htok t ht).2 c hct).2.1
  have := fgets_line (List.intercalate [','] r) rest hnl hlen
  simpa [row_text] using this

theorem cstr_row (r : List (List Char)) (h : well_formed_row r) :
    cstr (row_text r) = row_text r := by
  obtain ⟨_, htok, _⟩ := h
  apply cstr_eq_self
  intro c hc
  unfold row_text at hc
  rw [List.mem_append] at hc
  rcases hc with hc | hc
  · rcases mem_intercalate r c hc with h1 | ⟨t, ht, hct⟩
    · rw [h1]
      decide
    · exact ((htok t ht).2 c hct).2.2
  · rw [List.mem_singleton.mp hc]
    decide

theorem row_length_le_text (r : List (List Char)) (h : well_formed_row r) :
    r.length ≤ (row_text r).length := by
  induction r with
  | nil => simp
  | cons t r ih =>
    have ht : t ≠ [] := (h.2.1 t (List.mem_cons_self _ _)).1
    have htl : 1 ≤ t.length := List.length_pos.mpr ht
    cases r with
    | nil =>
      rw [row_text_single]
      simp
    | cons t1 r1 =>
      have := ih (well_formed_row_tail t t1 r1 h)
      rw [row_text_cons_cons]
      simp at this ⊢
      omega

theorem strtok_row_last (t : List Char) (h : well_formed_row [t]) :
    strtok ',' (row_text [t]) = (some (t ++ ['\n']), []) := by
  rw [row_text_single]
  apply strtok_last
  · simp
  · intro c hc
    rw [List.mem_append] at hc
    rcases hc with hc | hc
    · exact ((h.2.1 t (List.mem_cons_self _ _)).2 c hc).1
    · rw [List.mem_singleton.mp hc]
      decide

theorem strtok_row_cons (t t1 : List Char) (r : List (List Char))
    (h : well_formed_row (t :: t1 :: r)) :
    strtok ',' (row_text (t :: t1 :: r)) = (some t, row_text (t1 :: r)) := by
  rw [row_text_cons_cons]
  have ht := h.2.1 t (List.mem_cons_self _ _)
  exact strtok_comma t _ ht.1 (fun c hc => (ht.2 c hc).1)

theorem token_loop_none (fuel : Nat) (sv : List Char) (n : Nat) :
    token_loop fuel (none, sv) n = n := by
  cases fuel <;> rfl

theorem token_loop_row (r : List (List Char)) (h : well_formed_row r) (fuel n0 : Nat)
    (hf : r.length ≤ fuel) :
    token_loop fuel (strtok ',' (row_text r)) n0 = n0 + r.length := by
  induction r generalizing fuel n0 with
  | nil => exact absurd rfl h.1
  | cons t r ih =>
    obtain ⟨k, rfl⟩ : ∃ k, fuel = k + 1 := ⟨fuel - 1, by simp at hf; omega⟩
    cases r with
    | nil =>
      rw [strtok_row_last t h]
      show token_loop k (strtok ',' []) (n0 + 1) = _
      simp [strtok, token_loop_none]
    | cons t1 r1 =>
      rw [strtok_row_cons t t1 r1 h]
      show token_loop k (strtok ',' (row_text (t1 :: r1))) (n0 + 1) = _
      rw [ih (well_formed_row_tail t t1 r1 h) k (n0 + 1) (by simp at hf ⊢; omega)]
      simp
      omega

theorem count_loop_rows (rows : List (List (List Char)))
    (h : ∀ r ∈ rows, well_formed_row r) (fuel : Nat) (str : Option (List Char)) (m : Nat)
    (hf : rows.length ≤ fuel) :
    count_loop fuel (file_text rows) str m
      = ((rows.map (fun r => some (row_text r))).getLastD str, m + rows.length) := by
  induction rows generalizing fuel str m with
  | nil =>
    cases fuel with
    | zero => rfl
    | succ k => simp [count_loop, file_text, fgets]
  | cons r rows ih =>
    obtain ⟨k, rfl⟩ : ∃ k, fuel = k + 1 := ⟨fuel - 1, by simp at hf; omega⟩
    have hr := h r (List.mem_cons_self _ _)
    have hrows : ∀ r1 ∈ rows, well_formed_row r1 := fun r1 h1 => h r1 (List.mem_cons_of_mem _ h1)
    rw [file_text_cons]
    unfold count_loop
    rw [fgets_row r _ hr]
    show count_loop k (file_text rows) (some (row_text r)) (m + 1) = _
    rw [ih hrows k _ _ (by simp at hf; omega), List.map_cons, List.getLastD_cons]
    simp
    omega

theorem rows_length_le_text (rows : List (List (List Char)))
    (h : ∀ r ∈ rows, well_formed_row r) : rows.length ≤ (file_text rows).length := by
  induction rows with
  | nil => simp
  | cons r rows ih =>
    have hr := h r (List.mem_cons_self _ _)
    have hrows : ∀ r1 ∈ rows, well_formed_row r1 := fun r1 h1 => h r1 (List.mem_cons_of_mem _ h1)
    have h1 := ih hrows
    have h2 := row_length_le_text r hr
    have h3 : 1 ≤ r.length := List.length_pos.mpr hr.1
    rw [file_text_cons, List.length_append, List.length_cons]
    omega

theorem first_pass_rows (rows : List (List (List Char))) (hne : rows ≠ [])
    (h : ∀ r ∈ rows, well_formed_row r) :
    first_pass (file_text rows) = some (rows.length, (rows.getLast hne).length) := by
  have hlast := h _ (List.getLast_mem hne)
  have hcount := count_loop_rows rows h ((file_text rows).length + 1) none 0
    (Nat.le_succ_of_le (rows_length_le_text rows h))
  have hbuf : (rows.map (fun r => some (row_text r))).getLastD none
      = some (row_text (rows.getLast hne)) := by
    rw [List.getLastD_eq_getLast?, List.getLast?_map, List.getLast?_eq_getLast _ hne]
    rfl
  rw [hbuf] at hcount
  unfold first_pass
  rw [hcount]
  simp only [cstr_row _ hlast]
  rw [token_loop_row _ hlast _ 0 (Nat.le_succ_of_le (row_length_le_text _ hlast))]
  simp

theorem well_formed_row_drop (r : List (List Char)) (k : Nat) (h : well_formed_row r)
    (hk : k < r.length) : well_formed_row (r.drop k) := by
  induction k generalizing r with
  | zero => simpa using h
  | succ k ih =>
    match r, hk with
    | t :: t1 :: r1, hk =>
      rw [List.drop_succ_cons]
      exact ih (t1 :: r1) (well_formed_row_tail t t1 r1 h) (by simp at hk ⊢; omega)

theorem strtok_row_head (strtod : List Char → α) (u : List Char) (r : List (List Char))
    (h : well_formed_row (u :: r)) (hnl : strtod (u ++ ['\n']) = strtod u) :
    ∃ tok sv, strtok ',' (row_text (u :: r)) = (some tok, sv) ∧ strtod tok = strtod u := by
  cases r with
  | nil => exact ⟨_, _, strtok_row_last u h, hnl⟩
  | cons u1 r1 => exact ⟨_, _, strtok_row_cons u u1 r1 h, rfl⟩

theorem fill_loop_row (strtod : List Char → α) (c j : Nat) (pre mid post : List α)
    (rem : List (List Char)) (hpre : pre.length = j) (hmid : mid.length = c)
    (hrem : c < rem.length) (h : well_formed_row rem) :
    fill_loop strtod c j (pre ++ mid ++ post) (row_text rem)
      = some (pre ++ (rem.take c).map strtod ++ post, row_text (rem.drop c)) := by
  induction c generalizing j pre mid rem with
  | zero =>
    have : mid = [] := List.length_eq_zero.mp hmid
    subst this
    simp [fill_loop]
  | succ c ih =>
    match rem, hrem, mid, hmid with
    | t :: t1 :: r, hrem, a :: mid1, hmid =>
      have hset : (pre ++ a :: mid1 ++ post).set j (strtod t)
          = (pre ++ [strtod t]) ++ mid1 ++ post := by
        subst hpre
        simp
      unfold fill_loop
      rw [strtok_row_cons t t1 r h]
      show fill_loop strtod c (j + 1) ((pre ++ a :: mid1 ++ post).set j (strtod t))
        (row_text (t1 :: r)) = _
      rw [hset, ih (j + 1) (pre ++ [strtod t]) mid1 (t1 :: r) (by simp [hpre])
        (by simpa using hmid) (by simp at hrem ⊢; omega) (well_formed_row_tail t t1 r h)]
      simp

theorem parse_row_ok (strtod : List Char → α) (n : Nat) (r : List (List Char))
    (h : well_formed_row r) (hn : 2 ≤ n) (hr : n ≤ r.length)
    (hnl : ∀ t ∈ r, strtod (t ++ ['\n']) = strtod t) :
    parse_row strtod n ((List.replicate n 0).set 0 1) (row_text r)
      = some (1 :: (r.take (n - 1)).map strtod, strtod (r.getD (n - 1) [])) := by
  obtain ⟨k, rfl⟩ : ∃ k, n = k + 2 := ⟨n - 2, by omega⟩
  match r, hr with
  | t :: t1 :: r2, hr =>
    have hk : k < (t1 :: r2).length := by simp at hr ⊢; omega
    have htail := well_formed_row_tail t t1 r2 h
    have hdrop := well_formed_row_drop (t1 :: r2) k htail hk
    have hfill := fill_loop_row strtod k 2 [1, strtod t] (List.replicate k 0) []
      (t1 :: r2) rfl (by simp) hk htail
    obtain ⟨u, r3, hu⟩ : ∃ u r3, (t1 :: r2).drop k = u :: r3 := by
      cases hd : (t1 :: r2).drop k with
      | nil => exact absurd hd hdrop.1
      | cons u r3 => exact ⟨u, r3, rfl⟩
    have hget : (t :: t1 :: r2).getD (k + 2 - 1) [] = u := by
      have h1 : ((t1 :: r2).drop k)[0]? = some u := by rw [hu]; simp
      rw [List.getElem?_drop] at h1
      simp at h1 ⊢
      simp [h1]
    have humem : u ∈ t :: t1 :: r2 := by
      have : u ∈ (t1 :: r2).drop k := by rw [hu]; exact List.mem_cons_self _ _
      exact List.mem_cons_of_mem _ (List.mem_of_mem_drop this)
    rw [hu] at hfill hdrop
    obtain ⟨tok, sv, htok, hval⟩ := strtok_row_head strtod u r3 hdrop (hnl u humem)
    have hrow : (List.replicate (k + 2) (0 : α)).set 0 1 = 1 :: 0 :: List.replicate k 0 := by
      simp [List.replicate_succ]
    have hset : (1 :: 0 :: List.replicate k (0 : α)).set 1 (strtod t)
        = [1, strtod t] ++ List.replicate k 0 ++ [] := by
      simp
    unfold parse_row
    rw [cstr_row _ h, strtok_row_cons t t1 r2 h, hrow]
    simp only [List.length_cons, List.length_replicate, Nat.add_sub_cancel]
    rw [if_neg (by omega), hset, hfill]
    simp only [htok, hval, hget]
    simp

theorem read_loop_rows (strtod : List Char → α) (n : Nat) (hn : 2 ≤ n)
    (rem : List (List (List Char)))
    (h : ∀ r ∈ rem, well_formed_row r ∧ n ≤ r.length ∧
      ∀ t ∈ r, strtod (t ++ ['\n']) = strtod t)
    (fuel : Nat) (hf : rem.length ≤ fuel) (X0 : List (List α)) (y0 : List α)
    (hXy : X0.length = y0.length) :
    read_loop strtod n fuel (file_text rem)
        (X0 ++ List.replicate rem.length ((List.replicate n 0).set 0 1))
        (y0 ++ List.replicate rem.length 0) X0.length
      = some (X0 ++ rem.map (fun r => 1 :: (r.take (n - 1)).map strtod),
          y0 ++ rem.map (fun r => strtod (r.getD (n - 1) []))) := by
  induction rem generalizing fuel X0 y0 with
  | nil =>
    cases fuel with
    | zero => simp [read_loop]
    | succ k => simp [read_loop, file_text, fgets]
  | cons r rem ih =>
    obtain ⟨k, rfl⟩ : ∃ k, fuel = k + 1 := ⟨fuel - 1, by simp at hf; omega⟩
    obtain ⟨hwf, hlen, hnl⟩ := h r (List.mem_cons_self _ _)
    have hrem : ∀ r1 ∈ rem, well_formed_row r1 ∧ n ≤ r1.length ∧
        ∀ t ∈ r1, strtod (t ++ ['\n']) = strtod t :=
      fun r1 h1 => h r1 (List.mem_cons_of_mem _ h1)
    have hX : (X0 ++ List.replicate (r :: rem).length ((List.replicate n (0 : α)).set 0 1))[
        X0.length]? = some ((List.replicate n 0).set 0 1) := by
      rw [List.getElem?_append_right (Nat.le_refl _), Nat.sub_self, List.length_cons,
        List.replicate_succ, List.getElem?_cons_zero]
    have hsetX : (X0 ++ List.replicate (r :: rem).length ((List.replicate n (0 : α)).set 0 1)).set
        X0.length (1 :: (r.take (n - 1)).map strtod)
        = (X0 ++ [1 :: (r.take (n - 1)).map strtod])
          ++ List.replicate rem.length ((List.replicate n 0).set 0 1) := by
      simp [List.replicate_succ]
    have hsety : (y0 ++ List.replicate (r :: rem).length (0 : α)).set
        X0.length (strtod (r.getD (n - 1) []))
        = (y0 ++ [strtod (r.getD (n - 1) [])]) ++ List.replicate rem.length 0 := by
      rw [hXy]
      simp [List.replicate_succ]
    have hi : X0.length < (y0 ++ List.replicate (r :: rem).length (0 : α)).length := by
      rw [hXy]
      simp
    have ih1 := ih hrem k (by simp at hf; omega) (X0 ++ [1 :: (r.take (n - 1)).map strtod])
      (y0 ++ [strtod (r.getD (n - 1) [])]) (by simp [hXy])
    rw [file_text_cons]
    unfold read_loop
    rw [fgets_row r _ hwf]
    simp only [hX, parse_row_ok strtod n r hwf hn hlen hnl, if_pos hi, hsetX, hsety]
    rw [List.length_append, List.length_singleton] at ih1
    rw [ih1]
    simp

/-- What `read_from_data_file` returns on a file of well-formed rows that each
hold at least as many tokens as the last one. -/
theorem read_from_data_file_rows (strtod : List Char → α) (rows : List (List (List Char)))
    (hne : rows ≠ []) (n : Nat) (hn : 2 ≤ n) (hlast : (rows.getLast hne).length = n)
    (h : ∀ r ∈ rows, well_formed_row r ∧ n ≤ r.length ∧
      ∀ t ∈ r, strtod (t ++ ['\n']) = strtod t) :
    read_from_data_file strtod (file_text rows)
      = some ⟨rows.map (fun r => 1 :: (r.take (n - 1)).map strtod),
          rows.map (fun r => strtod (r.getD (n - 1) [])), rows.length, n⟩ := by
  have hwf : ∀ r ∈ rows, well_formed_row r := fun r hr => (h r hr).1
  have hloop := read_loop_rows strtod n hn rows h ((file_text rows).length + 1)
    (Nat.le_succ_of_le (rows_length_le_text rows hwf)) [] [] rfl
  simp only [List.nil_append, List.length_nil] at hloop
  unfold read_from_data_file
  rw [first_pass_rows rows hne hwf, hlast]
  simp only [if_neg (show ¬ n = 0 by omega), hloop]

theorem count_loop_lines (lines : List (List Char))
    (h : ∀ l ∈ lines, (∀ c ∈ l, c ≠ '\n') ∧ l.length < 199) (fuel : Nat)
    (str : Option (List Char)) (m : Nat) (hf : lines.length ≤ fuel) :
    count_loop fuel (lines_text lines) str m
      = ((lines.map (fun l => some (l ++ ['\n']))).getLastD str, m + lines.length) := by
  induction lines generalizing fuel str m with
  | nil =>
    cases fuel with
    | zero => rfl
    | succ k => simp [count_loop, lines_text, fgets]
  | cons l lines ih =>
    obtain ⟨k, rfl⟩ : ∃ k, fuel = k + 1 := ⟨fuel - 1, by simp at hf; omega⟩
    obtain ⟨hnl, hlen⟩ := h l (List.mem_cons_self _ _)
    have hrest : ∀ l1 ∈ lines, (∀ c ∈ l1, c ≠ '\n') ∧ l1.length < 199 :=
      fun l1 h1 => h l1 (List.mem_cons_of_mem _ h1)
    have htext : lines_text (l :: lines) = l ++ '\n' :: lines_text lines := by
      simp [lines_text]
    rw [htext]
    unfold count_loop
    rw [fgets_line l _ hnl hlen]
    show count_loop k (lines_text lines) (some (l ++ ['\n'])) (m + 1) = _
    rw [ih hrest k _ _ (by simp at hf; omega), List.map_cons, List.getLastD_cons]
    simp
    omega

theorem lines_length_le_text (lines : List (List Char)) :
    lines.length ≤ (lines_text lines).length := by
  induction lines with
  | nil => simp
  | cons l lines ih =>
    have htext : lines_text (l :: lines) = l ++ '\n' :: lines_text lines := by
      simp [lines_text]
    rw [htext]
    simp
    omega

theorem strtod_digits_newline (t : List Char) :
    (strtod_digits (t ++ ['\n']) : α) = strtod_digits t := by
  have h : (t ++ ['\n']).takeWhile Char.isDigit = t.takeWhile Char.isDigit := by
    induction t with
    | nil => rfl
    | cons c t ih =>
      by_cases hc : c.isDigit = true
      · simp [List.takeWhile_cons, hc, ih]
      · simp [List.takeWhile_cons, hc]
  unfold strtod_digits digits_value
  rw [h]

/-! ### The loader: claims -/

/-- C8: for every file made of `m ≥ 1` newline-terminated lines, each shorter
than 199 characters and holding exactly `k ≥ 2` comma-separated non-empty
tokens, with a number parser that stops at the newline ending the last token,
`read_from_data_file` returns a dataset with `num_train = m`, feature rows
`[1.0, t(i,0), .., t(i,k-2)]` and targets `y[i] = t(i,k-1)`. -/
theorem read_from_data_file_well_formed (strtod : List Char → α)
    (rows : List (List (List Char))) (k : Nat) (hm : 1 ≤ rows.length) (hk : 2 ≤ k)
    (hrows : ∀ r ∈ rows, well_formed_row r ∧ r.length = k)
    (hnl : ∀ r ∈ rows, ∀ t ∈ r, strtod (t ++ ['\n']) = strtod t) :
    read_from_data_file strtod (file_text rows)
      = some ⟨rows.map (fun r => 1 :: (r.take (k - 1)).map strtod),
          rows.map (fun r => strtod (r.getD (k - 1) [])), rows.length, k⟩ := by
  have hne : rows ≠ [] := by
    intro h0
    simp [h0] at hm
  exact read_from_data_file_rows strtod rows hne k hk (hrows _ (List.getLast_mem hne)).2
    (fun r hr => ⟨(hrows r hr).1, le_of_eq (hrows r hr).2.symm, hnl r hr⟩)

/-- Witness of C8 at the file `"1,2,3\n4,5,6\n"`. -/
theorem read_from_data_file_well_formed_witness :
    read_from_data_file (strtod_digits : List Char → ℝ)
        (file_text [[['1'], ['2'], ['3']], [['4'], ['5'], ['6']]])
      = some ⟨[[['1'], ['2'], ['3']], [['4'], ['5'], ['6']]].map
            (fun r => 1 :: (r.take (3 - 1)).map strtod_digits),
          [[['1'], ['2'], ['3']], [['4'], ['5'], ['6']]].map
            (fun r => strtod_digits (r.getD (3 - 1) [])),
          [[['1'], ['2'], ['3']], [['4'], ['5'], ['6']]].length, 3⟩ :=
  read_from_data_file_well_formed strtod_digits [[['1'], ['2'], ['3']], [['4'], ['5'], ['6']]] 3
    (by decide) (by decide) (by unfold well_formed_row; decide)
    (fun _ _ t _ => strtod_digits_newline t)

/-- The example of the specification: `"1,2,3\n4,5,6\n"` loads as the features
`[[1,1,2],[1,4,5]]` and the targets `[3,6]`. -/
theorem read_from_data_file_example :
    read_from_data_file (strtod_digits : List Char → ℝ) "1,2,3\n4,5,6\n".toList
      = some ⟨[[1, 1, 2], [1, 4, 5]], [3, 6], 2, 3⟩ := by
  have htext : "1,2,3\n4,5,6\n".toList
      = file_text [[['1'], ['2'], ['3']], [['4'], ['5'], ['6']]] := by decide
  rw [htext, read_from_data_file_rows strtod_digits _ (by simp) 3 (by decide) (by simp)
    (fun r hr => ⟨((by unfold well_formed_row; decide :
        ∀ r ∈ [[['1'], ['2'], ['3']], [['4'], ['5'], ['6']]],
          well_formed_row r ∧ 3 ≤ r.length) r hr).1,
      ((by unfold well_formed_row; decide :
        ∀ r ∈ [[['1'], ['2'], ['3']], [['4'], ['5'], ['6']]],
          well_formed_row r ∧ 3 ≤ r.length) r hr).2,
      fun t _ => strtod_digits_newline t⟩)]
  have h1 : digits_value ['1'] = 1 := by decide
  have h2 : digits_value ['2'] = 2 := by decide
  have h3 : digits_value ['3'] = 3 := by decide
  have h4 : digits_value ['4'] = 4 := by decide
  have h5 : digits_value ['5'] = 5 := by decide
  have h6 : digits_value ['6'] = 6 := by decide
  simp [strtod_digits, h1, h2, h3, h4, h5, h6]

/-- C9, as stated, fails: on `"1,2,3\n1,2\n"`, whose rows hold 3 and 2 tokens,
the routine raises no error but returns a dataset; the first row is cut to the
two columns counted on the last line. -/
theorem read_from_data_file_ragged_counterexample :
    read_from_data_file (strtod_digits : List Char → ℝ) "1,2,3\n1,2\n".toList
      = some ⟨[[1, 1], [1, 1]], [2, 2], 2, 2⟩ := by
  have htext : "1,2,3\n1,2\n".toList
      = file_text [[['1'], ['2'], ['3']], [['1'], ['2']]] := by decide
  rw [htext, read_from_data_file_rows strtod_digits _ (by simp) 2 (by decide) (by simp)
    (fun r hr => ⟨((by unfold well_formed_row; decide :
        ∀ r ∈ [[['1'], ['2'], ['3']], [['1'], ['2']]],
          well_formed_row r ∧ 2 ≤ r.length) r hr).1,
      ((by unfold well_formed_row; decide :
        ∀ r ∈ [[['1'], ['2'], ['3']], [['1'], ['2']]],
          well_formed_row r ∧ 2 ≤ r.length) r hr).2,
      fun t _ => strtod_digits_newline t⟩)]
  have h1 : digits_value ['1'] = 1 := by decide
  have h2 : digits_value ['2'] = 2 := by decide
  simp [strtod_digits, h1, h2]

/-- C9, amended: `read_from_data_file` compares no token counts.  The column
count `n` is the token count of the last line, and for every file of
well-formed rows that each hold at least `n ≥ 2` tokens it returns a dataset of
all `m` rows: each row keeps its first `n-1` tokens as features and its `n`-th
token as target, and the tokens after the `n`-th are dropped without an error. -/
theorem read_from_data_file_truncates (strtod : List Char → α)
    (rows : List (List (List Char))) (hne : rows ≠ []) (n : Nat) (hn : 2 ≤ n)
    (hlast : (rows.getLast hne).length = n)
    (hrows : ∀ r ∈ rows, well_formed_row r ∧ n ≤ r.length)
    (hnl : ∀ r ∈ rows, ∀ t ∈ r, strtod (t ++ ['\n']) = strtod t) :
    ∃ d, read_from_data_file strtod (file_text rows) = some d ∧
      d.num_train = rows.length ∧ d.num_feat = n ∧
      d.X = rows.map (fun r => 1 :: (r.take (n - 1)).map strtod) ∧
      d.y = rows.map (fun r => strtod (r.getD (n - 1) [])) :=
  ⟨_, read_from_data_file_rows strtod rows hne n hn hlast
    (fun r hr => ⟨(hrows r hr).1, (hrows r hr).2, hnl r hr⟩), rfl, rfl, rfl, rfl⟩

/-- Witness of the amended C9 at the file `"1,2,3\n1,2\n"`. -/
theorem read_from_data_file_truncates_witness :
    ∃ d, read_from_data_file (strtod_digits : List Char → ℝ)
        (file_text [[['1'], ['2'], ['3']], [['1'], ['2']]]) = some d ∧
      d.num_train = [[['1'], ['2'], ['3']], [['1'], ['2']]].length ∧ d.num_feat = 2 ∧
      d.X = [[['1'], ['2'], ['3']], [['1'], ['2']]].map
        (fun r => 1 :: (r.take (2 - 1)).map strtod_digits) ∧
      d.y = [[['1'], ['2'], ['3']], [['1'], ['2']]].map
        (fun r => strtod_digits (r.getD (2 - 1) [])) :=
  read_from_data_file_truncates strtod_digits [[['1'], ['2'], ['3']], [['1'], ['2']]]
    (by simp) 2 (by decide) (by simp) (by unfold well_formed_row; decide)
    (fun _ _ t _ => strtod_digits_newline t)

/-- C10, as stated, fails: the file `"1,2\n\n3,4\n"` has two non-empty lines,
and the first pass counts three rows. -/
theorem first_pass_blank_line_counterexample :
    first_pass "1,2\n\n3,4\n".toList = some (3, 2) ∧
      nonempty_line_count "1,2\n\n3,4\n".toList = 2 := by
  decide

/-- C10, amended: for every file made of newline-terminated lines, each shorter
than 199 characters, the row count of the first pass is the number of lines,
blank lines included; it is the `num_train` of any dataset returned. -/
theorem first_pass_counts_lines (lines : List (List Char)) (hne : lines ≠ [])
    (h : ∀ l ∈ lines, (∀ c ∈ l, c ≠ '\n') ∧ l.length < 199) :
    (∃ n, first_pass (lines_text lines) = some (lines.length, n)) ∧
      ∀ (strtod : List Char → ℝ) (d : data_t ℝ),
        read_from_data_file strtod (lines_text lines) = some d →
          d.num_train = lines.length := by
  have hcount := count_loop_lines lines h ((lines_text lines).length + 1) none 0
    (Nat.le_succ_of_le (lines_length_le_text lines))
  have hbuf : (lines.map (fun l => some (l ++ ['\n']))).getLastD none
      = some (lines.getLast hne ++ ['\n']) := by
    rw [List.getLastD_eq_getLast?, List.getLast?_map, List.getLast?_eq_getLast _ hne]
    rfl
  rw [hbuf, Nat.zero_add] at hcount
  have hfirst : first_pass (lines_text lines) = some (lines.length,
      token_loop ((lines.getLast hne ++ ['\n']).length + 1)
        (strtok ',' (cstr (lines.getLast hne ++ ['\n']))) 0) := by
    unfold first_pass
    rw [hcount]
  refine ⟨⟨_, hfirst⟩, ?_⟩
  intro strtod d hd
  unfold read_from_data_file at hd
  rw [hfirst] at hd
  simp only at hd
  split_ifs at hd
  split at hd
  · exact absurd hd (by simp)
  · cases hd
    rfl

/-- Witness of the amended C10 at the three lines of `"1,2\n\n3,4\n"`, the
second of them blank. -/
theorem first_pass_counts_lines_witness :
    (∃ n, first_pass (lines_text [['1', ',', '2'], [], ['3', ',', '4']])
        = some ([['1', ',', '2'], [], ['3', ',', '4']].length, n)) ∧
      ∀ (strtod : List Char → ℝ) (d : data_t ℝ),
        read_from_data_file strtod (lines_text [['1', ',', '2'], [], ['3', ',', '4']]) = some d →
          d.num_train = [['1', ',', '2'], [], ['3', ',', '4']].length :=
  first_pass_counts_lines [['1', ',', '2'], [], ['3', ',', '4']] (by simp) (by decide)

/-- C11, as stated, fails: `"1,2,3\n4,5,6\n"` has `k = 3` tokens per line, and
the count found by the first pass and stored in `num_feat` is 3, not `k - 1 = 2`. -/
theorem read_from_data_file_num_feat_counterexample :
    first_pass "1,2,3\n4,5,6\n".toList = some (2, 3) ∧
      (read_from_data_file (strtod_digits : List Char → ℝ) "1,2,3\n4,5,6\n".toList).map
          (fun d => d.num_feat) = some 3 ∧
      (read_from_data_file (strtod_digits : List Char → ℝ) "1,2,3\n4,5,6\n".toList).map
          (fun d => d.num_feat) ≠ some (3 - 1) := by
  refine ⟨by decide, ?_, ?_⟩
  · rw [read_from_data_file_example]
    rfl
  · rw [read_from_data_file_example]
    simp

/-- C11, amended: for every well-formed file with `k ≥ 2` tokens per line, the
count the first pass finds (the one printed as "Number of features") and the
`num_feat` of the returned dataset both equal `k`: the number of columns of
`X`, which counts the bias column with the `k - 1` parsed feature columns and
leaves the target out. -/
theorem read_from_data_file_num_feat (strtod : List Char → α)
    (rows : List (List (List Char))) (k : Nat) (hm : 1 ≤ rows.length) (hk : 2 ≤ k)
    (hrows : ∀ r ∈ rows, well_formed_row r ∧ r.length = k)
    (hnl : ∀ r ∈ rows, ∀ t ∈ r, strtod (t ++ ['\n']) = strtod t) :
    first_pass (file_text rows) = some (rows.length, k) ∧
      ∃ d, read_from_data_file strtod (file_text rows) = some d ∧
        d.num_feat = k ∧ ∀ row ∈ d.X, row.length = k := by
  have hne : rows ≠ [] := by
    intro h0
    simp [h0] at hm
  have hlast : (rows.getLast hne).length = k := (hrows _ (List.getLast_mem hne)).2
  refine ⟨?_, _, read_from_data_file_rows strtod rows hne k hk hlast
    (fun r hr => ⟨(hrows r hr).1, le_of_eq (hrows r hr).2.symm, hnl r hr⟩), rfl, ?_⟩
  · rw [first_pass_rows rows hne (fun r hr => (hrows r hr).1), hlast]
  · intro row hrow
    obtain ⟨r, hr, rfl⟩ := List.mem_map.mp hrow
    have := (hrows r hr).2
    simp
    omega

/-- Witness of the amended C11 at the file `"1,2,3\n4,5,6\n"`. -/
theorem read_from_data_file_num_feat_witness :
    first_pass (file_text [[['1'], ['2'], ['3']], [['4'], ['5'], ['6']]])
        = some ([[['1'], ['2'], ['3']], [['4'], ['5'], ['6']]].length, 3) ∧
      ∃ d, read_from_data_file (strtod_digits : List Char → ℝ)
          (file_text [[['1'], ['2'], ['3']], [['4'], ['5'], ['6']]]) = some d ∧
        d.num_feat = 3 ∧ ∀ row ∈ d.X, row.length = 3 :=
  read_from_data_file_num_feat strtod_digits [[['1'], ['2'], ['3']], [['4'], ['5'], ['6']]] 3
    (by decide) (by decide) (by unfold well_formed_row; decide)
    (fun _ _ t _ => strtod_digits_newline t)

/-! ### Accesses outside the arrays -/

/-- C12 fails on the code at `n = 1`: on the one-element vector `[5]` the seed
`min = v[1]` of line 54 reads index 1, outside `0 .. n-1`, so the out-of-range
branch of the checked read is taken and no result is produced. -/
theorem mean_normal_single_singleton_out_of_range :
    ([5] : List ℝ)[1]? = none ∧ first_loop ([5] : List ℝ) = none ∧
      mean_normal_single Real.sqrt ([5] : List ℝ) = none := by
  refine ⟨rfl, ?_, ?_⟩
  · simp [first_loop]
  · simp [mean_normal_single, first_loop]

/-- C13 fails on the code: on a matrix without rows and with one column the
routine makes no emptiness test; the seed loop of lines 124-127 reads `v[0]`,
outside the empty row array, so the out-of-range branch of the checked read is
taken. -/
theorem mean_normal_multiple_no_rows_out_of_range :
    ([] : List (List ℝ))[0]? = none ∧
      mean_normal_multiple Real.sqrt ([] : List (List ℝ)) 1 = none := by
  refine ⟨rfl, ?_⟩
  simp [mean_normal_multiple]

/-! ### The tracking of `max` and `min` -/

theorem scan_step_min_max (s : scan_t α) (x : α) (h : s.min ≤ s.max) :
    (scan_step s x).min = min s.min x ∧ (scan_step s x).max = max s.max x := by
  unfold scan_step
  by_cases h1 : s.max < x
  · rw [if_pos h1]
    exact ⟨(min_eq_left (le_trans h (le_of_lt h1))).symm, (max_eq_right (le_of_lt h1)).symm⟩
  · rw [if_neg h1]
    have h1le : x ≤ s.max := not_lt.mp h1
    by_cases h2 : s.min > x
    · rw [if_pos h2]
      exact ⟨(min_eq_right (le_of_lt h2)).symm, (max_eq_left h1le).symm⟩
    · rw [if_neg h2]
      exact ⟨(min_eq_left (not_lt.mp h2)).symm, (max_eq_left h1le).symm⟩

theorem foldl_scan_min_max (l : List α) (s : scan_t α) (h : s.min ≤ s.max) :
    ((l.foldl scan_step s).min ≤ s.min ∧ (∀ x ∈ l, (l.foldl scan_step s).min ≤ x) ∧
      ((l.foldl scan_step s).min = s.min ∨ (l.foldl scan_step s).min ∈ l)) ∧
    (s.max ≤ (l.foldl scan_step s).max ∧ (∀ x ∈ l, x ≤ (l.foldl scan_step s).max) ∧
      ((l.foldl scan_step s).max = s.max ∨ (l.foldl scan_step s).max ∈ l)) := by
  induction l generalizing s with
  | nil => simp
  | cons a l ih =>
    obtain ⟨hmin, hmax⟩ := scan_step_min_max s a h
    have hle : (scan_step s a).min ≤ (scan_step s a).max := by
      rw [hmin, hmax]
      exact le_trans (min_le_left _ _) (le_trans h (le_max_left _ _))
    obtain ⟨⟨i1, i2, i3⟩, ⟨j1, j2, j3⟩⟩ := ih (scan_step s a) hle
    rw [hmin] at i1 i3
    rw [hmax] at j1 j3
    rw [List.foldl_cons]
    refine ⟨⟨le_trans i1 (min_le_left _ _), ?_, ?_⟩, ⟨le_trans (le_max_left _ _) j1, ?_, ?_⟩⟩
    · intro x hx
      rcases List.mem_cons.mp hx with rfl | hx
      · exact le_trans i1 (min_le_right _ _)
      · exact i2 x hx
    · rcases i3 with h3 | h3
      · rcases min_choice s.min a with hc | hc
        · exact Or.inl (h3.trans hc)
        · exact Or.inr (by rw [h3, hc]; exact List.mem_cons_self _ _)
      · exact Or.inr (List.mem_cons_of_mem _ h3)
    · intro x hx
      rcases List.mem_cons.mp hx with rfl | hx
      · exact le_trans (le_max_right _ _) j1
      · exact j2 x hx
    · rcases j3 with h3 | h3
      · rcases max_choice s.max a with hc | hc
        · exact Or.inl (h3.trans hc)
        · exact Or.inr (by rw [h3, hc]; exact List.mem_cons_self _ _)
      · exact Or.inr (List.mem_cons_of_mem _ h3)

/-- After the first loop of `mean_normal_single` on a vector of length at least
2, `min` and `max` hold the true minimum and maximum. -/
theorem first_loop_min_max (v : List α) (h : 2 ≤ v.length) :
    ∃ s, first_loop v = some s ∧ is_minimum_of s.min v ∧ is_maximum_of s.max v := by
  match v, h with
  | a :: b :: t, _ =>
    refine ⟨(a :: b :: t).foldl scan_step ⟨a, b, 0⟩, by simp [first_loop], ?_⟩
    have h0 : (scan_step ⟨a, b, 0⟩ a : scan_t α) = ⟨a, min b a, 0 + a⟩ := by
      unfold scan_step
      simp only [lt_irrefl, if_false]
      by_cases hb : b > a
      · rw [if_pos hb, min_eq_right (le_of_lt hb)]
      · rw [if_neg hb, min_eq_left (not_lt.mp hb)]
    rw [List.foldl_cons, h0]
    obtain ⟨⟨i1, i2, i3⟩, ⟨j1, j2, j3⟩⟩ :=
      foldl_scan_min_max (b :: t) (⟨a, min b a, 0 + a⟩ : scan_t α) (min_le_right _ _)
    refine ⟨⟨?_, ?_⟩, ⟨?_, ?_⟩⟩
    · rcases i3 with h3 | h3
      · rcases min_choice b a with hc | hc
        · rw [h3]
          show min b a ∈ a :: b :: t
          rw [hc]
          simp
        · rw [h3]
          show min b a ∈ a :: b :: t
          rw [hc]
          simp
      · exact List.mem_cons_of_mem _ h3
    · intro x hx
      rcases List.mem_cons.mp hx with rfl | hx
      · exact le_trans i1 (min_le_right _ _)
      · exact i2 x hx
    · rcases j3 with h3 | h3
      · rw [h3]
        exact List.mem_cons_self _ _
      · exact List.mem_cons_of_mem _ h3
    · intro x hx
      rcases List.mem_cons.mp hx with rfl | hx
      · exact j1
      · exact j2 x hx

/-- C14, as stated, fails: no real vector of length `n ≥ 2` leaves in `min`,
after the first loop, a value other than the true minimum. -/
theorem first_loop_min_counterexample :
    ¬ ∃ v : List ℝ, 2 ≤ v.length ∧
      ∃ s, first_loop v = some s ∧ ¬ is_minimum_of s.min v := by
  rintro ⟨v, hv, s, hs, hmin⟩
  obtain ⟨s1, hs1, h1, _⟩ := first_loop_min_max v hv
  rw [hs] at hs1
  cases hs1
  exact hmin h1

/-- C14, amended: for every real vector of length `n ≥ 2`, the first loop of
`mean_normal_single` ends with `min` equal to the true minimum of
`v[0..n-1]` and `max` equal to the true maximum; seeding `min` from `v[1]`
does not change the minimum found. -/
theorem first_loop_tracks_min_max (v : List ℝ) (h : 2 ≤ v.length) :
    ∃ s, first_loop v = some s ∧ is_minimum_of s.min v ∧ is_maximum_of s.max v :=
  first_loop_min_max v h

/-- Witness of the amended C14 at the vector `[3, 1, 2]`. -/
theorem first_loop_tracks_min_max_witness :
    2 ≤ ([3, 1, 2] : List ℝ).length ∧
    ∃ s, first_loop ([3, 1, 2] : List ℝ) = some s ∧
      is_minimum_of s.min ([3, 1, 2] : List ℝ) ∧ is_maximum_of s.max ([3, 1, 2] : List ℝ) :=
  ⟨by simp, first_loop_tracks_min_max [3, 1, 2] (by simp)⟩

/-! ### The sign of the standard deviation -/

theorem sum_sq_eq_zero_iff (v : List α) (a : α) :
    (v.map (fun x => (x - a) ^ 2)).sum = 0 ↔ ∀ x ∈ v, x = a := by
  induction v with
  | nil => simp
  | cons x xs ih =>
    rw [List.map_cons, List.sum_cons,
      add_eq_zero_iff_of_nonneg (sq_nonneg _) (sum_sq_nonneg xs a), ih]
    constructor
    · rintro ⟨h1, h2⟩ y hy
      rcases List.mem_cons.mp hy with rfl | hy
      · exact sub_eq_zero.mp (pow_eq_zero_iff (two_ne_zero)|>.mp h1)
      · exact h2 y hy
    · intro h
      refine ⟨?_, fun y hy => h y (List.mem_cons_of_mem _ hy)⟩
      rw [h x (List.mem_cons_self _ _), sub_self]
      simp

theorem pop_variance_eq_zero_iff (v : List α) (hn : v ≠ []) :
    pop_variance v = 0 ↔ ∀ x ∈ v, ∀ y ∈ v, x = y := by
  have hlen : (v.length : α) ≠ 0 := by
    simpa using hn
  constructor
  · intro h x hx y hy
    unfold pop_variance at h
    rcases div_eq_zero_iff.mp h with h0 | h0
    · rw [sum_sq_eq_zero_iff] at h0
      rw [h0 x hx, h0 y hy]
    · exact absurd h0 hlen
  · intro h
    match v, hn with
    | c :: t, _ =>
      exact pop_variance_const (c :: t) c (by simp)
        (fun x hx => h x hx c (List.mem_cons_self _ _))

theorem first_loop_reading_of_length (junk : α) (v : List α) (h : 1 ≤ v.length) :
    ∃ s, first_loop_reading junk v = some s ∧ s.sum = v.sum := by
  match v, h with
  | a :: t, _ =>
    refine ⟨(a :: t).foldl scan_step ⟨a, ((a :: t)[1]?).getD junk, 0⟩,
      by simp [first_loop_reading], ?_⟩
    rw [foldl_scan_sum]
    simp

theorem mean_normal_single_reading_eq (junk : α) (sqrt : α → α) (v : List α)
    (h : 1 ≤ v.length) :
    mean_normal_single_reading junk sqrt v =
      some ⟨v.map (fun x => fdiv (x - arith_mean v) (pop_std_dev sqrt v)),
        arith_mean v, pop_std_dev sqrt v⟩ := by
  obtain ⟨s, hs, hsum⟩ := first_loop_reading_of_length junk v h
  simp only [mean_normal_single_reading, hs, hsum, foldl_sq_step, zero_add]
  rfl

/-- C15, as stated, fails on doubles: the three values of the vector
`{0.1, 0.1, 0.1}` are identical, and the routine computes the mean
`0x1.999999999999bp-4`, which is not the double 0.1, and `std_dev = 2 ^ -56`,
which is not 0. -/
theorem std_dev_b64_constant_counterexample :
    b64_round (1 / 10) = 3602879701896397 / 36028797018963968 ∧
    (mean_normal_single_b64 [3602879701896397 / 36028797018963968,
        3602879701896397 / 36028797018963968, 3602879701896397 / 36028797018963968]).map
      (fun r => (r.mean, r.std_dev))
      = some (7205759403792795 / 72057594037927936, 1 / 72057594037927936) ∧
    (mean_normal_single_b64 [3602879701896397 / 36028797018963968,
        3602879701896397 / 36028797018963968, 3602879701896397 / 36028797018963968]).map
      (fun r => r.std_dev) ≠ some 0 := by
  decide!

/-- C15, amended: read over exact real arithmetic, for every vector `v` of
length `n ≥ 1` the `std_dev` that `mean_normal_single` computes is non-negative
and is exactly 0 if and only if all values of `v` are identical; for `n = 1`
this holds whatever value the read of `v[1]` yields, and for `n ≥ 2` the
result is that of `mean_normal_single`. -/
theorem std_dev_nonneg_zero_iff_constant (junk : ℝ) (v : List ℝ) (h : 1 ≤ v.length) :
    ∃ r, mean_normal_single_reading junk Real.sqrt v = some r ∧
      (2 ≤ v.length → mean_normal_single Real.sqrt v = some r) ∧
      0 ≤ r.std_dev ∧ (r.std_dev = 0 ↔ ∀ x ∈ v, ∀ y ∈ v, x = y) := by
  have hn : v ≠ [] := by
    intro h0
    simp [h0] at h
  refine ⟨_, mean_normal_single_reading_eq junk Real.sqrt v h,
    fun h2 => mean_normal_single_eq Real.sqrt v h2, Real.sqrt_nonneg _, ?_⟩
  show Real.sqrt (pop_variance v) = 0 ↔ _
  rw [Real.sqrt_eq_zero (pop_variance_nonneg v), pop_variance_eq_zero_iff v hn]

/-- Witness of the amended C15 at the one-element vector `[5]`, the read of
`v[1]` yielding 7. -/
theorem std_dev_nonneg_zero_iff_constant_witness :
    1 ≤ ([5] : List ℝ).length ∧
    ∃ r, mean_normal_single_reading 7 Real.sqrt ([5] : List ℝ) = some r ∧
      (2 ≤ ([5] : List ℝ).length → mean_normal_single Real.sqrt ([5] : List ℝ) = some r) ∧
      0 ≤ r.std_dev ∧ (r.std_dev = 0 ↔ ∀ x ∈ ([5] : List ℝ), ∀ y ∈ ([5] : List ℝ), x = y) :=
  ⟨by simp, std_dev_nonneg_zero_iff_constant 7 [5] (by simp)⟩

/-! ### Column 0 does not reach the result -/

theorem normal_row_congr (st : List (α × α)) (row row1 : List α) (n : Nat)
    (hst : st.length = n - 1) (hrow : n ≤ row.length) (hrow1 : n ≤ row1.length)
    (hagree : ∀ j, 1 ≤ j → j < n → row.getD j 0 = row1.getD j 0) :
    normal_row st row = normal_row st row1 := by
  apply List.ext_getElem?
  intro j
  cases j with
  | zero => simp [normal_row]
  | succ k =>
    simp only [normal_row, List.getElem?_cons_succ, List.getElem?_zipWith, List.getElem?_drop]
    by_cases hk : k + 1 < n
    · have h1 : row[1 + k]? = some (row.getD (k + 1) 0) := by
        have hlt : k + 1 < row.length := by omega
        simp [Nat.add_comm 1 k, hlt]
      have h2 : row1[1 + k]? = some (row1.getD (k + 1) 0) := by
        have hlt : k + 1 < row1.length := by omega
        simp [Nat.add_comm 1 k, hlt]
      rw [h1, h2, hagree (k + 1) (by omega) hk]
    · have h3 : st[k]? = none := by
        apply List.getElem?_eq_none
        omega
      rw [h3]
      cases row[1 + k]? <;> cases row1[1 + k]? <;> rfl

theorem getD_of_matrix_column_eq (v v1 : List (List α)) (j i : Nat)
    (h : matrix_column v j = matrix_column v1 j) (hi : i < v.length) (hi1 : i < v1.length) :
    v[i].getD j 0 = v1[i].getD j 0 := by
  have h1 := congrArg (fun l => l[i]?) h
  simpa [matrix_column, hi, hi1] using h1

theorem mean_normal_multiple_congr (sqrt : α → α) (v v1 : List (List α)) (n : Nat)
    (hm : 1 ≤ v.length) (hn : 1 ≤ n) (hlen : v.length = v1.length)
    (hshape : ∀ row ∈ v, n ≤ row.length) (hshape1 : ∀ row ∈ v1, n ≤ row.length)
    (hagree : ∀ j, 1 ≤ j → j < n → matrix_column v j = matrix_column v1 j) :
    mean_normal_multiple sqrt v n = mean_normal_multiple sqrt v1 n := by
  have hst : (List.range' 1 (n - 1)).map (column_stats sqrt v)
      = (List.range' 1 (n - 1)).map (column_stats sqrt v1) := by
    apply List.map_congr_left
    intro j hj
    rw [List.mem_range'_1] at hj
    unfold column_stats
    rw [hagree j hj.1 (by omega)]
  have hV : v.map (normal_row ((List.range' 1 (n - 1)).map (column_stats sqrt v1)))
      = v1.map (normal_row ((List.range' 1 (n - 1)).map (column_stats sqrt v1))) := by
    apply List.ext_getElem (by simpa using hlen)
    intro i h1 h2
    have hi : i < v.length := by simpa using h1
    have hi1 : i < v1.length := by simpa using h2
    rw [List.getElem_map, List.getElem_map]
    exact normal_row_congr _ _ _ n (by simp) (hshape _ (List.getElem_mem hi))
      (hshape1 _ (List.getElem_mem hi1))
      (fun j hj hjn => getD_of_matrix_column_eq v v1 j i (hagree j hj hjn) hi hi1)
  rw [mean_normal_multiple_eq sqrt v n hm hn hshape,
    mean_normal_multiple_eq sqrt v1 n (by omega) hn hshape1, hst, hV]

/-- C16: two real matrices of the same shape with `m ≥ 1` rows that agree on
all the columns `1 .. n-1` get the same outcome from `mean_normal_multiple`,
whatever their columns 0 hold; with a column 0 present (`n ≥ 1`) that outcome is
a result, so the normalized matrices, the mean vectors and the std_dev vectors
are identical. -/
theorem mean_normal_multiple_ignores_bias (v v1 : List (List ℝ)) (n : Nat)
    (hm : 1 ≤ v.length) (hlen : v.length = v1.length)
    (hshape : ∀ row ∈ v, n ≤ row.length) (hshape1 : ∀ row ∈ v1, n ≤ row.length)
    (hagree : ∀ j, 1 ≤ j → j < n → matrix_column v j = matrix_column v1 j) :
    mean_normal_multiple Real.sqrt v n = mean_normal_multiple Real.sqrt v1 n ∧
      (1 ≤ n → ∃ r, mean_normal_multiple Real.sqrt v n = some r ∧
        mean_normal_multiple Real.sqrt v1 n = some r) := by
  by_cases hn : 1 ≤ n
  · have heq := mean_normal_multiple_congr Real.sqrt v v1 n hm hn hlen hshape hshape1 hagree
    refine ⟨heq, fun _ => ⟨_, mean_normal_multiple_eq Real.sqrt v n hm hn hshape, ?_⟩⟩
    rw [← heq]
    exact mean_normal_multiple_eq Real.sqrt v n hm hn hshape
  · have h0 : n = 0 := by omega
    subst h0
    exact ⟨by simp [mean_normal_multiple], fun h => absurd h hn⟩

/-- Witness of C16 at two matrices of two rows and three columns that differ in
column 0 only. -/
theorem mean_normal_multiple_ignores_bias_witness :
    (∀ j, 1 ≤ j → j < 3 →
      matrix_column ([[7, 0, 1], [9, 2, 3]] : List (List ℝ)) j
        = matrix_column ([[1, 0, 1], [1, 2, 3]] : List (List ℝ)) j) ∧
    mean_normal_multiple Real.sqrt ([[7, 0, 1], [9, 2, 3]] : List (List ℝ)) 3
        = mean_normal_multiple Real.sqrt ([[1, 0, 1], [1, 2, 3]] : List (List ℝ)) 3 ∧
      (1 ≤ 3 → ∃ r,
        mean_normal_multiple Real.sqrt ([[7, 0, 1], [9, 2, 3]] : List (List ℝ)) 3 = some r ∧
        mean_normal_multiple Real.sqrt ([[1, 0, 1], [1, 2, 3]] : List (List ℝ)) 3 = some r) := by
  have hagree : ∀ j, 1 ≤ j → j < 3 →
      matrix_column ([[7, 0, 1], [9, 2, 3]] : List (List ℝ)) j
        = matrix_column ([[1, 0, 1], [1, 2, 3]] : List (List ℝ)) j := by
    intro j h1 h3
    interval_cases j <;> simp [matrix_column]
  exact ⟨hagree, mean_normal_multiple_ignores_bias [[7, 0, 1], [9, 2, 3]]
    [[1, 0, 1], [1, 2, 3]] 3 (by simp) (by simp) (by simp) (by simp) hagree⟩

/-! ### Rescaling and renormalising -/

theorem sum_map_scale (v : List α) (a b : α) :
    (v.map (fun x => a * x + b)).sum = a * v.sum + (v.length : α) * b := by
  induction v with
  | nil => simp
  | cons x xs ih =>
    simp only [List.map_cons, List.sum_cons, ih, List.length_cons, Nat.cast_succ]
    ring

theorem arith_mean_scale (v : List α) (a b : α) (hn : v ≠ []) :
    arith_mean (v.map (fun x => a * x + b)) = a * arith_mean v + b := by
  have hlen : (v.length : α) ≠ 0 := by
    simpa using hn
  unfold arith_mean
  rw [sum_map_scale, List.length_map]
  field_simp
  ring

theorem sum_sq_scale (v : List α) (a b m : α) :
    (v.map (fun x => (a * x + b - (a * m + b)) ^ 2)).sum
      = a ^ 2 * (v.map (fun x => (x - m) ^ 2)).sum := by
  induction v with
  | nil => simp
  | cons x xs ih =>
    rw [List.map_cons, List.sum_cons, ih, List.map_cons, List.sum_cons]
    ring

theorem pop_variance_scale (v : List α) (a b : α) (hn : v ≠ []) :
    pop_variance (v.map (fun x => a * x + b)) = a ^ 2 * pop_variance v := by
  unfold pop_variance
  rw [arith_mean_scale v a b hn, List.map_map, List.length_map]
  have : ((fun y : α => (y - (a * arith_mean v + b)) ^ 2) ∘ fun x => a * x + b)
      = fun x => (a * x + b - (a * arith_mean v + b)) ^ 2 := rfl
  rw [this, sum_sq_scale, mul_div_assoc]

theorem pop_std_dev_scale (v : List ℝ) (a b : ℝ) (hn : v ≠ []) (ha : 0 < a) :
    pop_std_dev Real.sqrt (v.map (fun x => a * x + b)) = a * pop_std_dev Real.sqrt v := by
  unfold pop_std_dev
  rw [pop_variance_scale v a b hn, Real.sqrt_mul (sq_nonneg a), Real.sqrt_sq (le_of_lt ha)]

theorem fdiv_scale (x m s a b : α) (ha : a ≠ 0) :
    fdiv (a * x + b - (a * m + b)) (a * s) = fdiv (x - m) s := by
  unfold fdiv
  by_cases hs : s = 0
  · simp [hs]
  · have has : a * s ≠ 0 := mul_ne_zero ha hs
    rw [if_neg has, if_neg hs]
    congr 1
    field_simp
    ring

theorem pop_std_dev_normalised (v : List ℝ) (hn : v ≠ []) (hv : pop_variance v ≠ 0) :
    pop_std_dev Real.sqrt
      (v.map (fun x => (x - arith_mean v) / pop_std_dev Real.sqrt v)) = 1 := by
  unfold pop_std_dev
  rw [pop_variance_normalised v _ hn]
  show Real.sqrt (pop_variance v / Real.sqrt (pop_variance v) ^ 2) = 1
  rw [Real.sq_sqrt (pop_variance_nonneg v), div_self hv, Real.sqrt_one]

/-- C17: for every real vector `v` of length `n ≥ 2` with non-zero variance and
all reals `a > 0` and `b`, `mean_normal_single` applied to the values
`a*v[i] + b` returns the same normalized vector (of finite values) as for `v`,
with mean `a*mean + b` and std_dev `a*std_dev`. -/
theorem mean_normal_single_affine (v : List ℝ) (a b : ℝ) (h : 2 ≤ v.length)
    (hv : pop_variance v ≠ 0) (ha : 0 < a) :
    ∃ r r1, mean_normal_single Real.sqrt v = some r ∧
      mean_normal_single Real.sqrt (v.map (fun x => a * x + b)) = some r1 ∧
      r1.v = r.v ∧ (∃ w : List ℝ, r.v = w.map some) ∧
      r1.mean = a * r.mean + b ∧ r1.std_dev = a * r.std_dev := by
  have hn := ne_nil_of_two_le v h
  have hsd := sqrt_pop_variance_ne_zero v hv
  have h1 : 2 ≤ (v.map (fun x => a * x + b)).length := by simpa using h
  refine ⟨_, _, mean_normal_single_eq Real.sqrt v h, mean_normal_single_eq Real.sqrt _ h1,
    ?_, ⟨_, map_fdiv_of_ne_zero v _ _ hsd⟩, arith_mean_scale v a b hn,
    pop_std_dev_scale v a b hn ha⟩
  show (v.map (fun x => a * x + b)).map _ = v.map _
  rw [List.map_map, arith_mean_scale v a b hn, pop_std_dev_scale v a b hn ha]
  apply List.map_congr_left
  intro x _
  exact fdiv_scale x _ _ a b (ne_of_gt ha)

/-- Witness of C17 at the vector `[0, 2]` with `a = 3` and `b = 1`. -/
theorem mean_normal_single_affine_witness :
    2 ≤ ([0, 2] : List ℝ).length ∧ pop_variance ([0, 2] : List ℝ) ≠ 0 ∧ (0 : ℝ) < 3 ∧
    ∃ r r1, mean_normal_single Real.sqrt ([0, 2] : List ℝ) = some r ∧
      mean_normal_single Real.sqrt (([0, 2] : List ℝ).map (fun x => 3 * x + 1)) = some r1 ∧
      r1.v = r.v ∧ (∃ w : List ℝ, r.v = w.map some) ∧
      r1.mean = 3 * r.mean + 1 ∧ r1.std_dev = 3 * r.std_dev :=
  ⟨by simp, by norm_num [pop_variance, arith_mean], by norm_num,
    mean_normal_single_affine [0, 2] 3 1 (by simp)
      (by norm_num [pop_variance, arith_mean]) (by norm_num)⟩

/-- C18, as stated, fails on doubles: from `{1, 2, 3}` the routine returns the
normalized vector `{-x, 0, x}` with `x = 0x1.3988e1409212ep+0`, and applied to
that vector it returns `std_dev = 0x1.fffffffffffffp-1`, which is not 1, and
the different vector `{-y, 0, y}` with `y = 0x1.3988e1409212fp+0`. -/
theorem mean_normal_single_b64_twice_counterexample :
    (mean_normal_single_b64 [1, 2, 3]).map (fun r => (r.v, r.mean, r.std_dev))
      = some ([some (-(2757880273211543 / 2251799813685248)), some 0,
          some (2757880273211543 / 2251799813685248)], 2,
          3677173697615391 / 4503599627370496) ∧
    (mean_normal_single_b64 [-(2757880273211543 / 2251799813685248), 0,
        2757880273211543 / 2251799813685248]).map (fun r => (r.v, r.mean, r.std_dev))
      = some ([some (-(5515760546423087 / 4503599627370496)), some 0,
          some (5515760546423087 / 4503599627370496)], 0,
          9007199254740991 / 9007199254740992) := by
  decide!

/-- C18, amended: read over exact real arithmetic, for every vector `v` of
length `n ≥ 2` with non-zero variance, `mean_normal_single` applied to the
normalized vector it returned for `v` returns that same normalized vector
again, with mean 0 and std_dev 1. -/
theorem mean_normal_single_idempotent (v : List ℝ) (h : 2 ≤ v.length)
    (hv : pop_variance v ≠ 0) :
    ∃ r w, mean_normal_single Real.sqrt v = some r ∧ r.v = w.map some ∧
      mean_normal_single Real.sqrt w = some ⟨r.v, 0, 1⟩ := by
  have hn := ne_nil_of_two_le v h
  have hsd := sqrt_pop_variance_ne_zero v hv
  have hw : 2 ≤ (v.map (fun x => (x - arith_mean v) / pop_std_dev Real.sqrt v)).length := by
    simpa using h
  refine ⟨_, v.map (fun x => (x - arith_mean v) / pop_std_dev Real.sqrt v),
    mean_normal_single_eq Real.sqrt v h, map_fdiv_of_ne_zero v _ _ hsd, ?_⟩
  rw [mean_normal_single_eq Real.sqrt _ hw, arith_mean_normalised v _ hn,
    pop_std_dev_normalised v hn hv]
  show some _ = some (normal_single_t.mk (v.map _) 0 1)
  rw [map_fdiv_of_ne_zero v _ _ hsd]
  simp [fdiv]

/-- Witness of C18 at the vector `[0, 2]`, whose variance is 1. -/
theorem mean_normal_single_idempotent_witness :
    2 ≤ ([0, 2] : List ℝ).length ∧ pop_variance ([0, 2] : List ℝ) ≠ 0 ∧
    ∃ r w, mean_normal_single Real.sqrt ([0, 2] : List ℝ) = some r ∧ r.v = w.map some ∧
      mean_normal_single Real.sqrt w = some ⟨r.v, 0, 1⟩ :=
  ⟨by simp, by norm_num [pop_variance, arith_mean],
    mean_normal_single_idempotent [0, 2] (by simp) (by norm_num [pop_variance, arith_mean])⟩

end FeatureScale
